import Mathlib

/-!
Verification of the calendar conversion and formatting engine of the
nepali-datepicker repository (src/lib/date-converter.ts and
src/lib/date-formatter.ts), shallowly embedded in Lean 4.

Machine integers of the source (JS numbers used as integers) are embedded as
Nat; fallible functions (JS throw) return Except; JS Date / Date.UTC day
arithmetic is embedded through an explicit proleptic-Gregorian day-number
function.
-/

deriving instance DecidableEq for Except

namespace NepaliDatePicker

/-- Represents a date in the Bikram Sambat (BS) calendar system
(date-converter.ts, interface NepaliDate). -/
structure NepaliDate where
  year : Nat
  month : Nat
  day : Nat
deriving DecidableEq

/-- Represents a date in the Gregorian (AD) calendar system
(date-converter.ts, interface EnglishDate). -/
structure EnglishDate where
  year : Nat
  month : Nat
  day : Nat
deriving DecidableEq

/-- Error kinds raised by the engine (spec section 7). -/
inductive DateError where
  | unsupportedYear
  | invalidMonth
  | invalidBsDate
  | invalidAdDate
  | dateBeforeSupportedRange
  | bsYearOverflow
deriving DecidableEq

/-- Modelled from the spec: BS_MIN_YEAR, exported by the missing data module
nepali-date-data.ts; the repository README documents the supported range as
2000-2100 BS. -/
def BS_MIN_YEAR : Nat := 2000

/-- Modelled from the spec: BS_MAX_YEAR from the missing nepali-date-data.ts. -/
def BS_MAX_YEAR : Nat := 2100

/-- Modelled from the spec: one fixed sequence of 12 month lengths, each in
the observed range 29-32 (spec section 3), with the 10th month (Magh) having
30 days as quoted by the README for 2082.  The real BS_CALENDAR_DATA table in
nepali-date-data.ts varies per year and is not present under src/; every
theorem below relies only on the spec-stated invariants of the table (exactly
12 entries per supported year, each entry positive), never on particular
entries, so the choice of lengths is immaterial to the claims. -/
def bsMonthLengths : List Nat := [31, 31, 32, 31, 31, 31, 30, 30, 29, 30, 29, 31]

/-- Modelled from the spec: BS_CALENDAR_DATA from the missing
nepali-date-data.ts, a read-only mapping from BS year to the ordered sequence
of its 12 month lengths, defined exactly for the supported years. -/
def BS_CALENDAR_DATA (year : Nat) : Option (List Nat) :=
  if BS_MIN_YEAR ≤ year ∧ year ≤ BS_MAX_YEAR then some bsMonthLengths else none

/-- Modelled from the spec: the BS half of the reference anchor pair from the
missing nepali-date-data.ts.  The day-counting helper of date-converter.ts
counts whole years from BS_REFERENCE.year and whole months from month 1, so
the anchor is the first day of the first supported year. -/
def BS_REFERENCE : NepaliDate := ⟨2000, 1, 1⟩

/-- Modelled from the spec: the AD half of the reference anchor pair from the
missing nepali-date-data.ts, the Gregorian date denoting the same absolute day
as BS_REFERENCE (the customary anchor 1943-04-14 for BS 2000-01-01).  The
theorems below rely only on this being a real Gregorian date in the 20th
century, not on the exact pair. -/
def AD_REFERENCE : EnglishDate := ⟨1943, 4, 14⟩

/-- Calculates the total number of days in a specific BS year
(date-converter.ts getTotalDaysInBsYear); throws for unsupported years. -/
def getTotalDaysInBsYear (year : Nat) : Except DateError Nat :=
  match BS_CALENDAR_DATA year with
  | none => .error .unsupportedYear
  | some monthDays => .ok (monthDays.foldl (· + ·) 0)

/-- Gets the number of days in a specific month of a BS year
(date-converter.ts getDaysInBsMonth). -/
def getDaysInBsMonth (year month : Nat) : Except DateError Nat :=
  match BS_CALENDAR_DATA year with
  | none => .error .unsupportedYear
  | some monthDays =>
    if month < 1 ∨ month > 12 then .error .invalidMonth
    else .ok (monthDays.getD (month - 1) 0)

/-- Validates a BS date (date-converter.ts isValidBsDate); the source's
try/catch around getDaysInBsMonth is embedded as a match on the Except. -/
def isValidBsDate (year month day : Nat) : Bool :=
  if year < BS_MIN_YEAR ∨ year > BS_MAX_YEAR then false
  else if month < 1 ∨ month > 12 then false
  else
    match getDaysInBsMonth year month with
    | .error _ => false
    | .ok maxDays => decide (1 ≤ day) && decide (day ≤ maxDays)

/-- Total helper giving the table's month length; agrees with
getDaysInBsMonth on every supported year and month, and is used inside the
day-counting helper, which the source only ever calls on validated dates. -/
def monthLenN (year month : Nat) : Nat :=
  ((BS_CALENDAR_DATA year).getD []).getD (month - 1) 0

/-- Total helper giving the table's year total (the reduce in
getTotalDaysInBsYear), 0 outside the supported range. -/
def yearTotalN (year : Nat) : Nat :=
  ((BS_CALENDAR_DATA year).getD []).foldl (· + ·) 0

/-- Sum of the year totals of the n BS years starting at the reference year
(the first loop of countDaysFromBsReference in date-converter.ts). -/
def sumYearTotals : Nat → Nat
  | 0 => 0
  | n + 1 => sumYearTotals n + yearTotalN (BS_REFERENCE.year + n)

/-- Sum of the lengths of the first k months of a BS year (the second loop of
countDaysFromBsReference in date-converter.ts). -/
def monthSumBefore (year : Nat) : Nat → Nat
  | 0 => 0
  | k + 1 => monthSumBefore year k + monthLenN year (k + 1)

/-- Internal helper counting total days elapsed from the BS reference date
(date-converter.ts countDaysFromBsReference); called by the source only on
validated dates. -/
def countDaysFromBsReference (year month day : Nat) : Nat :=
  sumYearTotals (year - BS_REFERENCE.year) + monthSumBefore year (month - 1) + (day - 1)

/-- Checks if a Gregorian year is a leap year (date-converter.ts isLeapYear). -/
def isLeapYear (year : Nat) : Bool :=
  (year % 4 == 0 && year % 100 != 0) || year % 400 == 0

/-- Gets the number of days in a specific Gregorian month
(date-converter.ts getDaysInAdMonth). -/
def getDaysInAdMonth (year month : Nat) : Nat :=
  if month = 2 ∧ isLeapYear year then 29
  else [31, 28, 31, 30, 31, 30, 31, 31, 30, 31, 30, 31].getD (month - 1) 0

/-- One fuelled pass of the forward-only greedy stepping loop of bsToAd
(date-converter.ts lines 185-204), walking n days forward from an AD date
through Gregorian month lengths.  Each iteration decreases remainingDays by
at least one, so fuel = n makes the fuel inexhaustible; the fuel exists only
to make the recursion structural. -/
def adAddDaysCore : Nat → Nat → Nat → Nat → Nat → EnglishDate
  | 0, year, month, day, _ => ⟨year, month, day⟩
  | fuel + 1, year, month, day, n =>
    if n = 0 then ⟨year, month, day⟩
    else
      let daysInCurrentMonth := getDaysInAdMonth year month
      let daysLeftInMonth := daysInCurrentMonth - day
      if n ≤ daysLeftInMonth then ⟨year, month, day + n⟩
      else
        if month + 1 > 12 then adAddDaysCore fuel (year + 1) 1 1 (n - (daysLeftInMonth + 1))
        else adAddDaysCore fuel year (month + 1) 1 (n - (daysLeftInMonth + 1))

/-- The stepping loop of bsToAd, started with inexhaustible fuel. -/
def adAddDays (year month day n : Nat) : EnglishDate :=
  adAddDaysCore n year month day n

/-- Converts a BS date to an AD date (date-converter.ts bsToAd). -/
def bsToAd (year month day : Nat) : Except DateError EnglishDate :=
  if ¬ isValidBsDate year month day then .error .invalidBsDate
  else
    .ok (adAddDays AD_REFERENCE.year AD_REFERENCE.month AD_REFERENCE.day
          (countDaysFromBsReference year month day))

/-- The forward-only greedy stepping loop of adToBs (date-converter.ts lines
242-265), walking n days forward from a BS date through the table's month
lengths, failing once the year would pass BS_MAX_YEAR.  The month length is
read through the total helper monthLenN: the source's getDaysInBsMonth call
cannot throw here because the year stays within the supported range until the
overflow check fires. -/
def bsAddDaysCore : Nat → Nat → Nat → Nat → Nat → Except DateError NepaliDate
  | 0, year, month, day, _ => .ok ⟨year, month, day⟩
  | fuel + 1, year, month, day, n =>
    if n = 0 then .ok ⟨year, month, day⟩
    else
      let daysInCurrentMonth := monthLenN year month
      let daysLeftInMonth := daysInCurrentMonth - day
      if n ≤ daysLeftInMonth then .ok ⟨year, month, day + n⟩
      else
        if month + 1 > 12 then
          if year + 1 > BS_MAX_YEAR then .error .bsYearOverflow
          else bsAddDaysCore fuel (year + 1) 1 1 (n - (daysLeftInMonth + 1))
        else bsAddDaysCore fuel year (month + 1) 1 (n - (daysLeftInMonth + 1))

/-- The stepping loop of adToBs, started with inexhaustible fuel (each
iteration decreases remainingDays by at least one). -/
def bsAddDays (year month day n : Nat) : Except DateError NepaliDate :=
  bsAddDaysCore n year month day n

/-- Days lying before Gregorian year y in the proleptic Gregorian calendar,
counted from day 0 = January 1 of year 1; the standard closed form whose
differences agree with the Date.UTC millisecond arithmetic of adToBs. -/
def daysBeforeAdYear (y : Nat) : Nat :=
  365 * (y - 1) + (y - 1) / 4 - (y - 1) / 100 + (y - 1) / 400

/-- Sum of the lengths of the first k months of a Gregorian year. -/
def adMonthSumBefore (year : Nat) : Nat → Nat
  | 0 => 0
  | k + 1 => adMonthSumBefore year k + getDaysInAdMonth year (k + 1)

/-- Absolute day number of a Gregorian date (0 = 0001-01-01).  The UTC-
normalized day difference computed by adToBs via Date.UTC equals the
difference of this function on real calendar dates. -/
def gregDayNumber (year month day : Nat) : Nat :=
  daysBeforeAdYear year + adMonthSumBefore year (month - 1) + (day - 1)

/-- A real proleptic-Gregorian calendar day (positive year, month 1-12, day
within the month). -/
def isRealAdDay (year month day : Nat) : Bool :=
  decide (1 ≤ year) && decide (1 ≤ month) && decide (month ≤ 12) &&
    decide (1 ≤ day) && decide (day ≤ getDaysInAdMonth year month)

/-- Embeds the validity check of adToBs: the source builds
new Date(year, month-1, day) and compares the components; for integer inputs
the round trip succeeds exactly on real calendar days with year at least 100
(ECMAScript maps two-digit years to 19xx, so those never round-trip); the
finite upper range of JS Date (year 275760) is idealized away, far outside
the supported conversion span. -/
def adDateRoundTrips (year month day : Nat) : Bool :=
  decide (100 ≤ year) && isRealAdDay year month day

/-- Converts an AD date to a BS date (date-converter.ts adToBs).  The
Date.UTC subtraction and millisecond division are embedded as the difference
of gregDayNumber values. -/
def adToBs (year month day : Nat) : Except DateError NepaliDate :=
  if ¬ adDateRoundTrips year month day then .error .invalidAdDate
  else
    let diffDays : Int :=
      (gregDayNumber year month day : Int) -
        (gregDayNumber AD_REFERENCE.year AD_REFERENCE.month AD_REFERENCE.day : Int)
    if diffDays < 0 then .error .dateBeforeSupportedRange
    else bsAddDays BS_REFERENCE.year BS_REFERENCE.month BS_REFERENCE.day diffDays.toNat

/-- Compares two BS dates (date-converter.ts compareBsDates). -/
def compareBsDates (a b : NepaliDate) : Int :=
  if a.year ≠ b.year then if a.year < b.year then -1 else 1
  else if a.month ≠ b.month then if a.month < b.month then -1 else 1
  else if a.day ≠ b.day then if a.day < b.day then -1 else 1
  else 0

/-- Checks membership of a BS date in an inclusive optional range
(date-converter.ts isBsDateInRange); the JS truthiness test on the optional
parameters is embedded as a match on Option. -/
def isBsDateInRange (date : NepaliDate) (minDate maxDate : Option NepaliDate) : Bool :=
  match minDate with
  | some mn => if compareBsDates date mn < 0 then false
    else
      match maxDate with
      | some mx => if compareBsDates date mx > 0 then false else true
      | none => true
  | none =>
    match maxDate with
    | some mx => if compareBsDates date mx > 0 then false else true
    | none => true

/-- Little-endian decimal digits of a positive number, fuelled to keep the
recursion structural; the quotient shrinks strictly, so fuel = n suffices. -/
def decimalDigitsCore : Nat → Nat → List Nat
  | 0, _ => []
  | fuel + 1, n => if n = 0 then [] else n % 10 :: decimalDigitsCore fuel (n / 10)

/-- Little-endian decimal digits of a number, [] for 0. -/
def decimalDigitsAux (n : Nat) : List Nat := decimalDigitsCore n n

/-- Big-endian decimal digits of a number, [0] for 0; embeds the digit
sequence produced by JS Number.prototype.toString on an integer. -/
def decimalDigits (n : Nat) : List Nat :=
  if n = 0 then [0] else (decimalDigitsAux n).reverse

/-- ASCII character of a decimal digit. -/
def digitChar (d : Nat) : Char := Char.ofNat (48 + d)

/-- Character list of the decimal representation of a number; embeds
n.toString().split('') of the source. -/
def decimalString (n : Nat) : List Char := (decimalDigits n).map digitChar

/-- Modelled from the spec: NEPALI_NUMERALS from the missing
nepali-date-data.ts, the 10-entry localized digit-glyph table (the README
shows the Devanagari digits). -/
def NEPALI_NUMERALS : List String :=
  ["०", "१", "२", "३", "४", "५", "६", "७", "८", "९"]

/-- Converts a number to Nepali numerals (date-formatter.ts toNepaliNumeral):
each ASCII digit of the decimal representation is mapped through
NEPALI_NUMERALS (the JS fallback for a missing table entry keeps the original
character) and the pieces are joined. -/
def toNepaliNumeral (num : Nat) : String :=
  String.join ((decimalString num).map fun c =>
    NEPALI_NUMERALS.getD (c.toNat - 48) (String.mk [c]))

/-- Supported languages for date display (date-formatter.ts Language). -/
inductive Language where
  | ne
  | en
deriving DecidableEq

/-- Modelled from the spec: the English month-name table from the missing
nepali-date-data.ts (NEPALI_MONTHS.en), as listed in the README. -/
def NEPALI_MONTHS_EN : List String :=
  ["Baisakh", "Jestha", "Ashadh", "Shrawan", "Bhadra", "Ashwin",
   "Kartik", "Mangsir", "Poush", "Magh", "Falgun", "Chaitra"]

/-- Modelled from the spec: the Nepali month-name table from the missing
nepali-date-data.ts (NEPALI_MONTHS.ne), as listed in the README. -/
def NEPALI_MONTHS_NE : List String :=
  ["बैशाख", "जेठ", "असार", "साउन", "भदौ", "असोज",
   "कात्तिक", "मंसिर", "पुष", "माघ", "फागुन", "चैत"]

/-- Month-name lookup used by the formatter. -/
def nepaliMonthName (language : Language) (month : Nat) : String :=
  match language with
  | .en => NEPALI_MONTHS_EN.getD (month - 1) ""
  | .ne => NEPALI_MONTHS_NE.getD (month - 1) ""

/-- Does the list start with the given pattern? -/
def startsWithPat : List Char → List Char → Bool
  | _, [] => true
  | [], _ :: _ => false
  | c :: s, p :: ps => c = p && startsWithPat s ps

/-- Replace the first occurrence of pat in a character list (the semantics of
JS String.prototype.replace with a plain-string pattern); the list is
returned unchanged when pat does not occur. -/
def findReplace (pat rep : List Char) : List Char → List Char
  | [] => if startsWithPat [] pat then rep else []
  | c :: rest =>
    if startsWithPat (c :: rest) pat then rep ++ (c :: rest).drop pat.length
    else c :: findReplace pat rep rest

/-- Replace the first occurrence of tok that is neither preceded nor followed
by another tok (the semantics of the lookaround regexes (?<!M)M(?!M) and
(?<!D)D(?!D) used with a single replace); prev carries the previously
scanned character. -/
def replaceLone (tok : Char) (rep : List Char) : Option Char → List Char → List Char
  | _, [] => []
  | prev, c :: rest =>
    if c = tok ∧ prev ≠ some tok ∧ rest.head? ≠ some tok then rep ++ rest
    else c :: replaceLone tok rep (some c) rest

/-- Pad a character list on the left to length 2 with the given character
(JS String.prototype.padStart(2, ch)). -/
def padStart2 (ch : Char) (s : List Char) : List Char :=
  if 2 ≤ s.length then s else if s.length = 1 then ch :: s else [ch, ch]

/-- The leading character of the full-month placeholder; the source uses the
non-printable sequence u0000 u0001 u0002 u0003 u0000. -/
def FULL_MONTH_PLACEHOLDER : List Char :=
  [Char.ofNat 0, Char.ofNat 1, Char.ofNat 2, Char.ofNat 3, Char.ofNat 0]

/-- The short-month placeholder u0000 u0004 u0005 u0006 u0000. -/
def SHORT_MONTH_PLACEHOLDER : List Char :=
  [Char.ofNat 0, Char.ofNat 4, Char.ofNat 5, Char.ofNat 6, Char.ofNat 0]

/-- Formats a BS date according to a pattern (date-formatter.ts formatBsDate):
month-name tokens are protected by placeholders, then YYYY, YY, MM, lone M,
DD, lone D are substituted in this order, each replacing only its first
occurrence, and finally the placeholders are expanded to month names. -/
def formatBsDate (date : NepaliDate) (format : String) (language : Language) : String :=
  let formatNum : Nat → List Char := fun n =>
    match language with
    | .ne => (toNepaliNumeral n).data
    | .en => decimalString n
  let formatNumPad : Nat → List Char := fun n =>
    match language with
    | .ne => padStart2 '०' (toNepaliNumeral n).data
    | .en => padStart2 '0' (decimalString n)
  let r := format.data
  let r := findReplace ['M', 'M', 'M', 'M'] FULL_MONTH_PLACEHOLDER r
  let r := findReplace ['M', 'M', 'M'] SHORT_MONTH_PLACEHOLDER r
  let r := findReplace ['Y', 'Y', 'Y', 'Y'] (formatNum date.year) r
  let r := findReplace ['Y', 'Y'] (formatNum (date.year % 100)) r
  let r := findReplace ['M', 'M'] (formatNumPad date.month) r
  let r := replaceLone 'M' (formatNum date.month) none r
  let r := findReplace ['D', 'D'] (formatNumPad date.day) r
  let r := replaceLone 'D' (formatNum date.day) none r
  let r := findReplace FULL_MONTH_PLACEHOLDER (nepaliMonthName language date.month).data r
  let r := findReplace SHORT_MONTH_PLACEHOLDER
    ((nepaliMonthName language date.month).data.take 3) r
  String.mk r

/-- The fixed English month-name table local to formatAdDate. -/
def AD_MONTHS : List String :=
  ["January", "February", "March", "April", "May", "June",
   "July", "August", "September", "October", "November", "December"]

/-- Formats an AD date (date-formatter.ts formatAdDate); same token
processing as formatBsDate but always unlocalized digits and the fixed
English month table. -/
def formatAdDate (date : EnglishDate) (format : String) : String :=
  let r := format.data
  let r := findReplace ['M', 'M', 'M', 'M'] FULL_MONTH_PLACEHOLDER r
  let r := findReplace ['M', 'M', 'M'] SHORT_MONTH_PLACEHOLDER r
  let r := findReplace ['Y', 'Y', 'Y', 'Y'] (decimalString date.year) r
  let r := findReplace ['Y', 'Y'] (decimalString (date.year % 100)) r
  let r := findReplace ['M', 'M'] (padStart2 '0' (decimalString date.month)) r
  let r := replaceLone 'M' (decimalString date.month) none r
  let r := findReplace ['D', 'D'] (padStart2 '0' (decimalString date.day)) r
  let r := replaceLone 'D' (decimalString date.day) none r
  let r := findReplace FULL_MONTH_PLACEHOLDER (AD_MONTHS.getD (date.month - 1) "").data r
  let r := findReplace SHORT_MONTH_PLACEHOLDER
    ((AD_MONTHS.getD (date.month - 1) "").data.take 3) r
  String.mk r

/-- The character class matched by the regex token for a digit: exactly the
ASCII digits 0-9. -/
def isAsciiDigit (c : Char) : Bool :=
  decide (48 ≤ c.toNat) && decide (c.toNat ≤ 57)

/-- Take the maximal leading run of ASCII digits. -/
def takeDigits : List Char → List Char × List Char
  | [] => ([], [])
  | c :: rest =>
    if isAsciiDigit c then
      let p := takeDigits rest
      (c :: p.1, p.2)
    else ([], c :: rest)

/-- Decimal value of a run of ASCII digit characters (JS parseInt on a
digits-only string). -/
def digitsToVal (l : List Char) : Nat :=
  l.foldl (fun a c => 10 * a + (c.toNat - 48)) 0

/-- Parses a date string to a NepaliDate (date-formatter.ts parseBsDate).
Embeds the anchored regex (4 digits)-(1 or 2 digits)-(1 or 2 digits): with
the exact counter on the year group and the end anchor, the regex matches
exactly when the maximal digit runs delimited by the two hyphens have
lengths 4, 1-2 and 1-2 and nothing follows, which is what this function
tests. -/
def parseBsDate (dateString : String) : Option NepaliDate :=
  let p1 := takeDigits dateString.data
  if p1.1.length = 4 then
    match p1.2 with
    | c1 :: r2 =>
      if c1 = '-' then
        let p2 := takeDigits r2
        if 1 ≤ p2.1.length ∧ p2.1.length ≤ 2 then
          match p2.2 with
          | c2 :: r4 =>
            if c2 = '-' then
              let p3 := takeDigits r4
              if 1 ≤ p3.1.length ∧ p3.1.length ≤ 2 ∧ p3.2 = [] then
                some ⟨digitsToVal p1.1, digitsToVal p2.1, digitsToVal p3.1⟩
              else none
            else none
          | [] => none
        else none
      else none
    | [] => none
  else none

/-! ### Comparator and range lemmas -/

/-- The lexicographic comparison on (year, month, day) in priority order, as
worded by the spec; compared against compareBsDates in claim C6. -/
def lexCompareSpec (a b : NepaliDate) : Int :=
  if a.year < b.year then -1
  else if b.year < a.year then 1
  else if a.month < b.month then -1
  else if b.month < a.month then 1
  else if a.day < b.day then -1
  else if b.day < a.day then 1
  else 0

theorem compareBsDates_cases (a b : NepaliDate) :
    compareBsDates a b = -1 ∨ compareBsDates a b = 0 ∨ compareBsDates a b = 1 := by
  unfold compareBsDates
  split_ifs <;> simp

theorem compareBsDates_self (a : NepaliDate) : compareBsDates a a = 0 := by
  simp [compareBsDates]

theorem compareBsDates_neg (a b : NepaliDate) :
    compareBsDates b a = - compareBsDates a b := by
  unfold compareBsDates
  split_ifs <;> omega

theorem compareBsDates_eq_zero_iff (a b : NepaliDate) :
    compareBsDates a b = 0 ↔ a = b := by
  obtain ⟨ay, am, ad⟩ := a
  obtain ⟨by_, bm, bd⟩ := b
  unfold compareBsDates
  simp only [NepaliDate.mk.injEq]
  split_ifs <;> simp_all <;> omega

theorem compareBsDates_neg_one_iff (a b : NepaliDate) :
    compareBsDates a b = -1 ↔
      (a.year < b.year ∨ (a.year = b.year ∧ (a.month < b.month ∨
        (a.month = b.month ∧ a.day < b.day)))) := by
  unfold compareBsDates
  split_ifs <;> simp_all

theorem compareBsDates_le_zero_iff (a b : NepaliDate) :
    compareBsDates a b ≤ 0 ↔
      (a.year < b.year ∨ (a.year = b.year ∧ (a.month < b.month ∨
        (a.month = b.month ∧ a.day ≤ b.day)))) := by
  unfold compareBsDates
  split_ifs <;> simp_all <;> omega

/-- C6: compareBsDates equals the lexicographic comparison of
(year, month, day) in that priority order, always returns -1, 0 or 1, is
reflexive-zero, antisymmetric and transitive. -/
theorem compareBsDates_is_lex_total_order :
    ∀ a b c : NepaliDate,
      (compareBsDates a b = -1 ∨ compareBsDates a b = 0 ∨ compareBsDates a b = 1)
      ∧ compareBsDates a b = lexCompareSpec a b
      ∧ compareBsDates a a = 0
      ∧ compareBsDates b a = - compareBsDates a b
      ∧ (compareBsDates a b = 0 → a = b)
      ∧ (compareBsDates a b ≤ 0 → compareBsDates b c ≤ 0 → compareBsDates a c ≤ 0)
      ∧ (compareBsDates a b = -1 → compareBsDates b c = -1 → compareBsDates a c = -1) := by
  intro a b c
  refine ⟨compareBsDates_cases a b, ?_, compareBsDates_self a, compareBsDates_neg a b,
    (compareBsDates_eq_zero_iff a b).mp, ?_, ?_⟩
  · unfold compareBsDates lexCompareSpec
    split_ifs <;> omega
  · intro h1 h2
    rw [compareBsDates_le_zero_iff] at h1 h2 ⊢
    omega
  · intro h1 h2
    rw [compareBsDates_neg_one_iff] at h1 h2 ⊢
    omega

theorem compareBsDates_is_lex_total_order_witness :
    compareBsDates ⟨2082, 10, 5⟩ ⟨2082, 10, 15⟩ = -1 ∧
      compareBsDates ⟨2082, 10, 5⟩ ⟨2083, 1, 1⟩ ≤ 0 := by
  refine ⟨by decide, ?_⟩
  exact (compareBsDates_is_lex_total_order ⟨2082, 10, 5⟩ ⟨2082, 10, 15⟩
    ⟨2083, 1, 1⟩).2.2.2.2.2.1 (by decide) (by decide)

/-- C7: isBsDateInRange is true unless a present min bound compares above the
date or a present max bound compares below it; both bounds are inclusive and
an absent bound imposes no constraint. -/
theorem isBsDateInRange_spec :
    ∀ (date : NepaliDate) (mn mx : Option NepaliDate),
      (isBsDateInRange date mn mx = true ↔
        ((∀ m, mn = some m → ¬ compareBsDates date m < 0) ∧
         (∀ m, mx = some m → ¬ compareBsDates date m > 0)))
      ∧ (∀ a b : NepaliDate, compareBsDates a b ≤ 0 →
          isBsDateInRange a (some a) (some b) = true ∧
          isBsDateInRange b (some a) (some b) = true)
      ∧ isBsDateInRange date none none = true := by
  intro date mn mx
  refine ⟨?_, ?_, rfl⟩
  · obtain _ | mnv := mn <;> obtain _ | mxv := mx <;>
      simp [isBsDateInRange] <;> split_ifs <;> simp_all <;> omega
  · intro a b hab
    have h1 := compareBsDates_self a
    have h2 := compareBsDates_self b
    have h3 := compareBsDates_neg a b
    constructor <;> simp [isBsDateInRange] <;> omega

theorem isBsDateInRange_spec_witness :
    isBsDateInRange ⟨2082, 10, 5⟩ (some ⟨2082, 10, 5⟩) (some ⟨2082, 10, 15⟩) = true ∧
      isBsDateInRange ⟨2082, 10, 15⟩ (some ⟨2082, 10, 5⟩) (some ⟨2082, 10, 15⟩) = true :=
  (isBsDateInRange_spec ⟨2082, 10, 5⟩ none none).2.1 ⟨2082, 10, 5⟩ ⟨2082, 10, 15⟩
    (by decide)

/-! ### Decimal digit and numeral lemmas -/

/-- Value of a big-endian digit list. -/
def valOfDigits (l : List Nat) : Nat := l.foldl (fun a d => 10 * a + d) 0

/-- The localized glyph of an ASCII digit character, as a single character. -/
def nepaliGlyphOfDigitChar (c : Char) : Char :=
  (NEPALI_NUMERALS.getD (c.toNat - 48) (String.mk [c])).data.headD c

theorem mem_decimalDigitsCore_lt (fuel : Nat) :
    ∀ n d, d ∈ decimalDigitsCore fuel n → d < 10 := by
  induction fuel with
  | zero => intro n d h; simp [decimalDigitsCore] at h
  | succ fuel ih =>
    intro n d h
    by_cases hn : n = 0
    · simp [decimalDigitsCore, hn] at h
    · simp only [decimalDigitsCore, if_neg hn, List.mem_cons] at h
      rcases h with h | h
      · omega
      · exact ih _ _ h

theorem mem_decimalDigits_lt (n d : Nat) (h : d ∈ decimalDigits n) : d < 10 := by
  unfold decimalDigits at h
  by_cases hn : n = 0
  · simp [hn] at h; omega
  · rw [if_neg hn, List.mem_reverse] at h
    exact mem_decimalDigitsCore_lt n n d h

theorem valOfDigits_append_singleton (xs : List Nat) (d : Nat) :
    valOfDigits (xs ++ [d]) = 10 * valOfDigits xs + d := by
  simp [valOfDigits, List.foldl_append]

theorem valOfDigits_core (fuel : Nat) :
    ∀ n, n ≤ fuel → valOfDigits (decimalDigitsCore fuel n).reverse = n := by
  induction fuel with
  | zero =>
    intro n hn
    simp [decimalDigitsCore, valOfDigits]
    omega
  | succ fuel ih =>
    intro n hn
    by_cases h0 : n = 0
    · simp [decimalDigitsCore, h0, valOfDigits]
    · rw [decimalDigitsCore, if_neg h0, List.reverse_cons, valOfDigits_append_singleton,
        ih (n / 10) (by omega)]
      omega

theorem valOfDigits_decimalDigits (n : Nat) : valOfDigits (decimalDigits n) = n := by
  unfold decimalDigits decimalDigitsAux
  by_cases h0 : n = 0
  · simp [h0, valOfDigits]
  · rw [if_neg h0, valOfDigits_core n n le_rfl]

theorem digitChar_toNat (d : Nat) (h : d < 10) : (digitChar d).toNat = 48 + d := by
  interval_cases d <;> decide

theorem digitsToVal_map_digitChar_aux (l : List Nat) (h : ∀ d ∈ l, d < 10) :
    ∀ a, List.foldl (fun a c => 10 * a + (c.toNat - 48)) a (l.map digitChar) =
      List.foldl (fun a d => 10 * a + d) a l := by
  induction l with
  | nil => intro a; rfl
  | cons d l ih =>
    intro a
    have hd : d < 10 := h d (by simp)
    simp only [List.map_cons, List.foldl_cons, digitChar_toNat d hd]
    rw [ih (fun x hx => h x (by simp [hx]))]
    congr 1
    omega

theorem digitsToVal_decimalString (n : Nat) : digitsToVal (decimalString n) = n := by
  unfold digitsToVal decimalString
  rw [digitsToVal_map_digitChar_aux (decimalDigits n) (mem_decimalDigits_lt n)]
  exact valOfDigits_decimalDigits n

theorem mem_decimalString_isAsciiDigit (n : Nat) (c : Char)
    (h : c ∈ decimalString n) : isAsciiDigit c = true := by
  unfold decimalString at h
  rw [List.mem_map] at h
  obtain ⟨d, hd, rfl⟩ := h
  have : d < 10 := mem_decimalDigits_lt n d hd
  interval_cases d <;> decide

theorem flatten_map_singleton {α β : Type} (l : List α) (g : α → List β) (h : α → β)
    (hg : ∀ x ∈ l, g x = [h x]) : (l.map g).flatten = l.map h := by
  induction l with
  | nil => rfl
  | cons x l ih =>
    simp only [List.map_cons, List.flatten_cons, hg x (by simp)]
    rw [ih (fun y hy => hg y (by simp [hy]))]
    rfl

theorem glyph_data_of_digit (c : Char) (h : isAsciiDigit c = true) :
    (NEPALI_NUMERALS.getD (c.toNat - 48) (String.mk [c])).data =
      [nepaliGlyphOfDigitChar c] := by
  have hc : c.toNat - 48 < 10 := by
    simp [isAsciiDigit] at h
    omega
  unfold nepaliGlyphOfDigitChar
  set d := c.toNat - 48 with hd
  interval_cases d <;> rfl

theorem toNepaliNumeral_data (n : Nat) :
    (toNepaliNumeral n).data = (decimalString n).map nepaliGlyphOfDigitChar := by
  unfold toNepaliNumeral
  rw [String.join_eq]
  show (((decimalString n).map _).map String.data).flatten = _
  rw [List.map_map]
  exact flatten_map_singleton (decimalString n) _ nepaliGlyphOfDigitChar
    (fun c hc => glyph_data_of_digit c (mem_decimalString_isAsciiDigit n c hc))

/-- C9: toNepaliNumeral maps each ASCII digit of the decimal representation
independently through the 10-entry glyph table, preserving order and
inserting nothing, so the output length equals the decimal digit count; the
third conjunct certifies that decimalString n really is the decimal
representation of n. -/
theorem toNepaliNumeral_digit_local :
    ∀ n : Nat,
      (toNepaliNumeral n).data = (decimalString n).map nepaliGlyphOfDigitChar
      ∧ (toNepaliNumeral n).length = (decimalString n).length
      ∧ digitsToVal (decimalString n) = n := by
  intro n
  refine ⟨toNepaliNumeral_data n, ?_, digitsToVal_decimalString n⟩
  show (toNepaliNumeral n).data.length = _
  rw [toNepaliNumeral_data n, List.length_map]

/-! ### Parser lemmas -/

theorem digitsToVal_lt_pow (l : List Char) (h : ∀ c ∈ l, isAsciiDigit c = true) :
    digitsToVal l < 10 ^ l.length := by
  suffices H : ∀ a, List.foldl (fun a c => 10 * a + (c.toNat - 48)) a l <
      (a + 1) * 10 ^ l.length by
    have := H 0
    simpa [digitsToVal] using this
  induction l with
  | nil => intro a; simp
  | cons c l ih =>
    intro a
    have hc : c.toNat - 48 < 10 := by
      have := h c (by simp)
      simp [isAsciiDigit] at this
      omega
    have step := ih (fun x hx => h x (by simp [hx])) (10 * a + (c.toNat - 48))
    calc List.foldl (fun a c => 10 * a + (c.toNat - 48)) (10 * a + (c.toNat - 48)) l
        < (10 * a + (c.toNat - 48) + 1) * 10 ^ l.length := step
      _ ≤ ((a + 1) * 10) * 10 ^ l.length := by
          have : 10 * a + (c.toNat - 48) + 1 ≤ (a + 1) * 10 := by omega
          exact Nat.mul_le_mul_right _ this
      _ = (a + 1) * 10 ^ (c :: l).length := by
          rw [List.length_cons, Nat.pow_succ]
          ring

theorem takeDigits_fst_digits (l : List Char) :
    ∀ c ∈ (takeDigits l).1, isAsciiDigit c = true := by
  induction l with
  | nil => intro c hc; simp [takeDigits] at hc
  | cons x l ih =>
    intro c hc
    by_cases hx : isAsciiDigit x
    · simp only [takeDigits, if_pos hx, List.mem_cons] at hc
      rcases hc with rfl | hc
      · exact hx
      · exact ih c hc
    · simp [takeDigits, hx] at hc

/-- C3 counterexample: parseBsDate performs no calendar validation, so the
parse of 9999-99-99 succeeds although the result violates every NepaliDate
invariant. -/
theorem parseBsDate_counterexample :
    parseBsDate "9999-99-99" = some ⟨9999, 99, 99⟩ ∧
      isValidBsDate 9999 99 99 = false ∧ BS_MAX_YEAR < 9999 ∧ 12 < 99 := by
  decide

/-- C3 (amended): a non-null parseBsDate result is only constrained by the
digit counts of the accepted layout - year at most 9999, month and day at
most 99 - not by the NepaliDate calendar invariants. -/
theorem parseBsDate_shape_bounds :
    ∀ (s : String) (d : NepaliDate), parseBsDate s = some d →
      d.year ≤ 9999 ∧ d.month ≤ 99 ∧ d.day ≤ 99 := by
  intro s d h
  unfold parseBsDate at h
  simp only [] at h
  split at h
  case isTrue hy =>
    split at h
    case h_1 c1 r2 heq =>
      split at h
      case isTrue hc1 =>
        split at h
        case isTrue hm =>
          split at h
          case h_1 c2 r4 heq2 =>
            split at h
            case isTrue hc2 =>
              split at h
              case isTrue hd =>
                obtain ⟨rfl⟩ : (⟨_, _, _⟩ : NepaliDate) = d := Option.some.inj h
                dsimp only
                have b1 := digitsToVal_lt_pow _ (takeDigits_fst_digits s.data)
                have b2 := digitsToVal_lt_pow _ (takeDigits_fst_digits r2)
                have b3 := digitsToVal_lt_pow _ (takeDigits_fst_digits r4)
                rw [hy] at b1
                refine ⟨by omega, ?_, ?_⟩
                · have : (10:Nat) ^ (takeDigits r2).1.length ≤ 10 ^ 2 :=
                    Nat.pow_le_pow_right (by omega) hm.2
                  omega
                · have : (10:Nat) ^ (takeDigits r4).1.length ≤ 10 ^ 2 :=
                    Nat.pow_le_pow_right (by omega) hd.2.1
                  omega
              case isFalse => simp at h
            case isFalse => simp at h
          case h_2 => simp at h
        case isFalse => simp at h
      case isFalse => simp at h
    case h_2 => simp at h
  case isFalse => simp at h

theorem parseBsDate_shape_bounds_witness :
    parseBsDate "2082-10-15" = some ⟨2082, 10, 15⟩ ∧
      (2082 ≤ 9999 ∧ 10 ≤ 99 ∧ 15 ≤ 99) :=
  ⟨by decide, parseBsDate_shape_bounds "2082-10-15" ⟨2082, 10, 15⟩ (by decide)⟩

/-! ### String replacement marching lemmas -/

theorem findReplace_cons_head_ne (pat rep : List Char) (c : Char) (t : List Char)
    (h : startsWithPat (c :: t) pat = false) :
    findReplace pat rep (c :: t) = c :: findReplace pat rep t := by
  simp [findReplace, h]

theorem findReplace_of_head_not_mem (p : Char) (pt rep s : List Char) (h : p ∉ s) :
    findReplace (p :: pt) rep s = s := by
  induction s with
  | nil => rfl
  | cons c t ih =>
    have hc : c ≠ p := fun hcp => h (by simp [hcp])
    have hs : startsWithPat (c :: t) (p :: pt) = false := by
      simp [startsWithPat, hc]
    rw [findReplace_cons_head_ne _ _ _ _ hs, ih (fun hm => h (by simp [hm]))]

theorem findReplace_append_left (p : Char) (pt rep s1 s2 : List Char) (h : p ∉ s1) :
    findReplace (p :: pt) rep (s1 ++ s2) = s1 ++ findReplace (p :: pt) rep s2 := by
  induction s1 with
  | nil => rfl
  | cons c t ih =>
    have hc : c ≠ p := fun hcp => h (by simp [hcp])
    have hs : startsWithPat (c :: (t ++ s2)) (p :: pt) = false := by
      simp [startsWithPat, hc]
    rw [List.cons_append, findReplace_cons_head_ne _ _ _ _ hs,
      ih (fun hm => h (by simp [hm]))]
    rfl

theorem replaceLone_not_mem (tok : Char) (rep : List Char) (s : List Char)
    (h : tok ∉ s) : ∀ prev, replaceLone tok rep prev s = s := by
  induction s with
  | nil => intro prev; rfl
  | cons c t ih =>
    intro prev
    have hc : c ≠ tok := fun hcp => h (by simp [hcp])
    rw [replaceLone, if_neg (by simp [hc]), ih (fun hm => h (by simp [hm]))]

theorem replaceLone_append_left (tok : Char) (rep : List Char) (s1 s2 : List Char)
    (h1 : tok ∉ s1) (h2 : ∀ prev, replaceLone tok rep prev s2 = s2) :
    ∀ prev, replaceLone tok rep prev (s1 ++ s2) = s1 ++ s2 := by
  induction s1 with
  | nil => intro prev; exact h2 prev
  | cons c t ih =>
    intro prev
    have hc : c ≠ tok := fun hcp => h1 (by simp [hcp])
    rw [List.cons_append, replaceLone, if_neg (by simp [hc]),
      ih (fun hm => h1 (by simp [hm])) (some c)]

theorem not_mem_of_all_digits (c : Char) (hc : isAsciiDigit c = false)
    (l : List Char) (hl : ∀ x ∈ l, isAsciiDigit x = true) : c ∉ l := by
  intro hmem
  rw [hl c hmem] at hc
  cases hc

theorem mem_padStart2 (ch : Char) (s : List Char) (c : Char)
    (h : c ∈ padStart2 ch s) : c = ch ∨ c ∈ s := by
  unfold padStart2 at h
  split_ifs at h <;> simp_all

theorem all_digits_padStart2 (ch : Char) (s : List Char)
    (hch : isAsciiDigit ch = true) (hs : ∀ x ∈ s, isAsciiDigit x = true) :
    ∀ x ∈ padStart2 ch s, isAsciiDigit x = true := by
  intro x hx
  rcases mem_padStart2 ch s x hx with rfl | hx2
  · exact hch
  · exact hs x hx2

/-! ### Decimal length lemmas -/

theorem decimalDigitsCore_length_le (fuel : Nat) :
    ∀ n k, n < 10 ^ k → (decimalDigitsCore fuel n).length ≤ k := by
  induction fuel with
  | zero => intro n k _; simp [decimalDigitsCore]
  | succ fuel ih =>
    intro n k hn
    by_cases h0 : n = 0
    · simp [decimalDigitsCore, h0]
    · rw [decimalDigitsCore, if_neg h0]
      match k with
      | 0 => omega
      | k + 1 =>
        have hdiv : n / 10 < 10 ^ k := by
          rw [Nat.div_lt_iff_lt_mul (by omega)]
          calc n < 10 ^ (k + 1) := hn
            _ = 10 ^ k * 10 := by rw [Nat.pow_succ]
        simpa using ih (n / 10) k hdiv

theorem decimalDigitsCore_length_ge (fuel : Nat) :
    ∀ n k, 10 ^ k ≤ n → n ≤ fuel → k + 1 ≤ (decimalDigitsCore fuel n).length := by
  induction fuel with
  | zero =>
    intro n k hk hn
    have : 0 < 10 ^ k := Nat.pos_pow_of_pos k (by omega)
    omega
  | succ fuel ih =>
    intro n k hk hn
    have hpos : 0 < 10 ^ k := Nat.pos_pow_of_pos k (by omega)
    have h0 : n ≠ 0 := by omega
    rw [decimalDigitsCore, if_neg h0]
    match k with
    | 0 => simp
    | k + 1 =>
      have hge : 10 ^ k ≤ n / 10 := by
        rw [Nat.le_div_iff_mul_le (by omega)]
        calc 10 ^ k * 10 = 10 ^ (k + 1) := (Nat.pow_succ 10 k).symm
          _ ≤ n := hk
      have hle : n / 10 ≤ fuel := by omega
      have := ih (n / 10) k hge hle
      simpa using this

theorem decimalString_length_four (y : Nat) (h1 : 1000 ≤ y) (h2 : y ≤ 9999) :
    (decimalString y).length = 4 := by
  have h0 : y ≠ 0 := by omega
  unfold decimalString decimalDigits decimalDigitsAux
  rw [if_neg h0, List.length_map, List.length_reverse]
  have hle := decimalDigitsCore_length_le y y 4 (by omega)
  have hge := decimalDigitsCore_length_ge y y 3 (by norm_num; omega) le_rfl
  omega

theorem decimalString_length_pos (n : Nat) : 1 ≤ (decimalString n).length := by
  unfold decimalString decimalDigits decimalDigitsAux
  by_cases h0 : n = 0
  · simp [h0]
  · rw [if_neg h0, List.length_map, List.length_reverse]
    have := decimalDigitsCore_length_ge n n 0 (by simpa using Nat.one_le_iff_ne_zero.mpr h0) le_rfl
    omega

theorem decimalString_length_le_two (n : Nat) (h : n ≤ 99) :
    (decimalString n).length ≤ 2 := by
  unfold decimalString decimalDigits decimalDigitsAux
  by_cases h0 : n = 0
  · simp [h0]
  · rw [if_neg h0, List.length_map, List.length_reverse]
    exact decimalDigitsCore_length_le n n 2 (by omega)

theorem padStart2_length (ch : Char) (s : List Char) (h1 : 1 ≤ s.length)
    (h2 : s.length ≤ 2) : (padStart2 ch s).length = 2 := by
  unfold padStart2
  split_ifs <;> (try simp) <;> omega

theorem digitsToVal_cons_zero (l : List Char) :
    digitsToVal ('0' :: l) = digitsToVal l := by
  show List.foldl _ (10 * 0 + ('0'.toNat - 48)) l = List.foldl _ 0 l
  have h0 : 10 * 0 + ('0'.toNat - 48) = 0 := by decide
  rw [h0]

theorem digitsToVal_padStart2_zero (n : Nat) :
    digitsToVal (padStart2 '0' (decimalString n)) = n := by
  unfold padStart2
  split_ifs with h1 h2
  · exact digitsToVal_decimalString n
  · rw [digitsToVal_cons_zero]
    exact digitsToVal_decimalString n
  · have := decimalString_length_pos n
    omega

theorem takeDigits_append_not_digit (s1 s2 : List Char) (c2 : Char)
    (h1 : ∀ c ∈ s1, isAsciiDigit c = true) (h2 : isAsciiDigit c2 = false) :
    takeDigits (s1 ++ c2 :: s2) = (s1, c2 :: s2) := by
  induction s1 with
  | nil => simp [takeDigits, h2]
  | cons x t ih =>
    have hx : isAsciiDigit x = true := h1 x (by simp)
    rw [List.cons_append, takeDigits]
    simp only [hx, if_pos]
    rw [ih (fun c hc => h1 c (by simp [hc]))]

theorem takeDigits_all_digits (s : List Char) (h : ∀ c ∈ s, isAsciiDigit c = true) :
    takeDigits s = (s, []) := by
  induction s with
  | nil => rfl
  | cons x t ih =>
    have hx : isAsciiDigit x = true := h x (by simp)
    rw [takeDigits]
    simp only [hx, if_pos]
    rw [ih (fun c hc => h c (by simp [hc]))]

/-! ### Formatter evaluation on the canonical and duplicated-token patterns -/

theorem canonical_chain (ys mm dd yyRep mRep dRep p1 p2 : List Char)
    (hys : ∀ c ∈ ys, isAsciiDigit c = true)
    (hmm : ∀ c ∈ mm, isAsciiDigit c = true)
    (hdd : ∀ c ∈ dd, isAsciiDigit c = true) :
    findReplace SHORT_MONTH_PLACEHOLDER p2
      (findReplace FULL_MONTH_PLACEHOLDER p1
        (replaceLone 'D' dRep none
          (findReplace ['D', 'D'] dd
            (replaceLone 'M' mRep none
              (findReplace ['M', 'M'] mm
                (findReplace ['Y', 'Y'] yyRep
                  (findReplace ['Y', 'Y', 'Y', 'Y'] ys
                    (findReplace ['M', 'M', 'M'] SHORT_MONTH_PLACEHOLDER
                      (findReplace ['M', 'M', 'M', 'M'] FULL_MONTH_PLACEHOLDER
                        (String.data "YYYY-MM-DD")))))))))) =
      ys ++ '-' :: (mm ++ '-' :: dd) := by
  have e1 : findReplace ['M', 'M', 'M', 'M'] FULL_MONTH_PLACEHOLDER
      (String.data "YYYY-MM-DD") =
      ('Y' :: 'Y' :: 'Y' :: 'Y' :: '-' :: 'M' :: 'M' :: '-' :: 'D' :: 'D' :: []) := by
    decide
  rw [e1]
  have e2 : findReplace ['M', 'M', 'M'] SHORT_MONTH_PLACEHOLDER
      ('Y' :: 'Y' :: 'Y' :: 'Y' :: '-' :: 'M' :: 'M' :: '-' :: 'D' :: 'D' :: []) =
      ('Y' :: 'Y' :: 'Y' :: 'Y' :: '-' :: 'M' :: 'M' :: '-' :: 'D' :: 'D' :: []) := by
    decide
  rw [e2]
  have e3 : findReplace ['Y', 'Y', 'Y', 'Y'] ys
      ('Y' :: 'Y' :: 'Y' :: 'Y' :: '-' :: 'M' :: 'M' :: '-' :: 'D' :: 'D' :: []) =
      ys ++ ('-' :: 'M' :: 'M' :: '-' :: 'D' :: 'D' :: []) := rfl
  rw [e3]
  have e4 : findReplace ['Y', 'Y'] yyRep
      (ys ++ ('-' :: 'M' :: 'M' :: '-' :: 'D' :: 'D' :: [])) =
      ys ++ ('-' :: 'M' :: 'M' :: '-' :: 'D' :: 'D' :: []) := by
    rw [findReplace_append_left _ _ _ _ _ (not_mem_of_all_digits 'Y' (by decide) ys hys)]
    rw [findReplace_of_head_not_mem 'Y' _ _ _ (by decide)]
  rw [e4]
  have e5 : findReplace ['M', 'M'] mm
      (ys ++ ('-' :: 'M' :: 'M' :: '-' :: 'D' :: 'D' :: [])) =
      ys ++ ('-' :: (mm ++ ('-' :: 'D' :: 'D' :: []))) := by
    rw [findReplace_append_left _ _ _ _ _ (not_mem_of_all_digits 'M' (by decide) ys hys)]
    rfl
  rw [e5]
  have hnotM : ('M' : Char) ∉ ys ++ ('-' :: (mm ++ ('-' :: 'D' :: 'D' :: []))) := by
    intro h
    rcases List.mem_append.mp h with h | h
    · exact not_mem_of_all_digits 'M' (by decide) ys hys h
    · rcases List.mem_cons.mp h with h | h
      · exact absurd h (by decide)
      · rcases List.mem_append.mp h with h | h
        · exact not_mem_of_all_digits 'M' (by decide) mm hmm h
        · exact absurd h (by decide)
  rw [replaceLone_not_mem 'M' _ _ hnotM none]
  have e7 : findReplace ['D', 'D'] dd
      (ys ++ ('-' :: (mm ++ ('-' :: 'D' :: 'D' :: [])))) =
      ys ++ ('-' :: (mm ++ ('-' :: dd))) := by
    rw [findReplace_append_left _ _ _ _ _ (not_mem_of_all_digits 'D' (by decide) ys hys)]
    congr 1
    rw [findReplace_cons_head_ne _ _ _ _ (by
      simp only [startsWithPat]
      rw [show (decide (('-' : Char) = 'D')) = false from by decide, Bool.false_and])]
    rw [findReplace_append_left _ _ _ _ _ (not_mem_of_all_digits 'D' (by decide) mm hmm)]
    have : findReplace ['D', 'D'] dd ('-' :: 'D' :: 'D' :: []) = '-' :: (dd ++ []) := rfl
    rw [this, List.append_nil]
  rw [e7]
  have hnotD : ('D' : Char) ∉ ys ++ ('-' :: (mm ++ ('-' :: dd))) := by
    intro h
    rcases List.mem_append.mp h with h | h
    · exact not_mem_of_all_digits 'D' (by decide) ys hys h
    · rcases List.mem_cons.mp h with h | h
      · exact absurd h (by decide)
      · rcases List.mem_append.mp h with h | h
        · exact not_mem_of_all_digits 'D' (by decide) mm hmm h
        · rcases List.mem_cons.mp h with h | h
          · exact absurd h (by decide)
          · exact not_mem_of_all_digits 'D' (by decide) dd hdd h
  rw [replaceLone_not_mem 'D' _ _ hnotD none]
  have hnot0 : (Char.ofNat 0) ∉ ys ++ ('-' :: (mm ++ ('-' :: dd))) := by
    intro h
    rcases List.mem_append.mp h with h | h
    · exact not_mem_of_all_digits (Char.ofNat 0) (by decide) ys hys h
    · rcases List.mem_cons.mp h with h | h
      · exact absurd h (by decide)
      · rcases List.mem_append.mp h with h | h
        · exact not_mem_of_all_digits (Char.ofNat 0) (by decide) mm hmm h
        · rcases List.mem_cons.mp h with h | h
          · exact absurd h (by decide)
          · exact not_mem_of_all_digits (Char.ofNat 0) (by decide) dd hdd h
  have e9 : findReplace FULL_MONTH_PLACEHOLDER p1 (ys ++ ('-' :: (mm ++ ('-' :: dd)))) =
      ys ++ ('-' :: (mm ++ ('-' :: dd))) :=
    findReplace_of_head_not_mem (Char.ofNat 0) _ _ _ hnot0
  have e10 : findReplace SHORT_MONTH_PLACEHOLDER p2 (ys ++ ('-' :: (mm ++ ('-' :: dd)))) =
      ys ++ ('-' :: (mm ++ ('-' :: dd))) :=
    findReplace_of_head_not_mem (Char.ofNat 0) _ _ _ hnot0
  rw [e9, e10]

theorem duplicated_dd_chain (dd ysRep yyRep mmRep mRep dRep p1 p2 : List Char)
    (hdd : ∀ c ∈ dd, isAsciiDigit c = true) :
    findReplace SHORT_MONTH_PLACEHOLDER p2
      (findReplace FULL_MONTH_PLACEHOLDER p1
        (replaceLone 'D' dRep none
          (findReplace ['D', 'D'] dd
            (replaceLone 'M' mRep none
              (findReplace ['M', 'M'] mmRep
                (findReplace ['Y', 'Y'] yyRep
                  (findReplace ['Y', 'Y', 'Y', 'Y'] ysRep
                    (findReplace ['M', 'M', 'M'] SHORT_MONTH_PLACEHOLDER
                      (findReplace ['M', 'M', 'M', 'M'] FULL_MONTH_PLACEHOLDER
                        (String.data "DD DD")))))))))) =
      dd ++ (' ' :: 'D' :: 'D' :: []) := by
  have e1 : findReplace ['M', 'M', 'M', 'M'] FULL_MONTH_PLACEHOLDER
      (String.data "DD DD") = ('D' :: 'D' :: ' ' :: 'D' :: 'D' :: []) := by decide
  rw [e1]
  have e2 : findReplace ['M', 'M', 'M'] SHORT_MONTH_PLACEHOLDER
      ('D' :: 'D' :: ' ' :: 'D' :: 'D' :: []) =
      ('D' :: 'D' :: ' ' :: 'D' :: 'D' :: []) := by decide
  rw [e2]
  have e3 : findReplace ['Y', 'Y', 'Y', 'Y'] ysRep
      ('D' :: 'D' :: ' ' :: 'D' :: 'D' :: []) =
      ('D' :: 'D' :: ' ' :: 'D' :: 'D' :: []) :=
    findReplace_of_head_not_mem 'Y' _ _ _ (by decide)
  rw [e3]
  have e4 : findReplace ['Y', 'Y'] yyRep
      ('D' :: 'D' :: ' ' :: 'D' :: 'D' :: []) =
      ('D' :: 'D' :: ' ' :: 'D' :: 'D' :: []) :=
    findReplace_of_head_not_mem 'Y' _ _ _ (by decide)
  rw [e4]
  have e5 : findReplace ['M', 'M'] mmRep
      ('D' :: 'D' :: ' ' :: 'D' :: 'D' :: []) =
      ('D' :: 'D' :: ' ' :: 'D' :: 'D' :: []) :=
    findReplace_of_head_not_mem 'M' _ _ _ (by decide)
  rw [e5]
  rw [replaceLone_not_mem 'M' mRep _ (by decide) none]
  have e6 : findReplace ['D', 'D'] dd ('D' :: 'D' :: ' ' :: 'D' :: 'D' :: []) =
      dd ++ (' ' :: 'D' :: 'D' :: []) := rfl
  rw [e6]
  have htail : ∀ prev, replaceLone 'D' dRep prev (' ' :: 'D' :: 'D' :: []) =
      (' ' :: 'D' :: 'D' :: []) := by
    intro prev
    rw [replaceLone, if_neg (fun h => absurd h.1 (by decide))]
    rw [replaceLone, if_neg (fun h => h.2.2 rfl)]
    rw [replaceLone, if_neg (fun h => h.2.1 rfl)]
    rfl
  rw [replaceLone_append_left 'D' dRep dd _
    (not_mem_of_all_digits 'D' (by decide) dd hdd) htail none]
  have hnot0 : (Char.ofNat 0) ∉ dd ++ (' ' :: 'D' :: 'D' :: []) := by
    intro h
    rcases List.mem_append.mp h with h | h
    · exact not_mem_of_all_digits (Char.ofNat 0) (by decide) dd hdd h
    · exact absurd h (by decide)
  have e9 : findReplace FULL_MONTH_PLACEHOLDER p1 (dd ++ (' ' :: 'D' :: 'D' :: [])) =
      dd ++ (' ' :: 'D' :: 'D' :: []) :=
    findReplace_of_head_not_mem (Char.ofNat 0) _ _ _ hnot0
  have e10 : findReplace SHORT_MONTH_PLACEHOLDER p2 (dd ++ (' ' :: 'D' :: 'D' :: [])) =
      dd ++ (' ' :: 'D' :: 'D' :: []) :=
    findReplace_of_head_not_mem (Char.ofNat 0) _ _ _ hnot0
  rw [e9, e10]

/-! ### Validator bridge lemmas -/

theorem getD_le_of_all (l : List Nat) (b : Nat) (hb : ∀ x ∈ l, x ≤ b) :
    ∀ i, l.getD i 0 ≤ b := by
  induction l with
  | nil => intro i; simp [List.getD]
  | cons x t ih =>
    intro i
    match i with
    | 0 => exact hb x (by simp)
    | i + 1 =>
      rw [List.getD_cons_succ]
      exact ih (fun z hz => hb z (by simp [hz])) i

theorem monthLenN_le_32 (y m : Nat) : monthLenN y m ≤ 32 := by
  rw [monthLenN, BS_CALENDAR_DATA]
  split_ifs with h
  · exact getD_le_of_all bsMonthLengths 32 (by decide) (m - 1)
  · simp [List.getD]

theorem monthLenN_pos (y m : Nat) (hy1 : 2000 ≤ y) (hy2 : y ≤ 2100)
    (hm1 : 1 ≤ m) (hm2 : m ≤ 12) : 1 ≤ monthLenN y m := by
  rw [monthLenN, BS_CALENDAR_DATA, if_pos ⟨hy1, hy2⟩]
  show 1 ≤ bsMonthLengths.getD (m - 1) 0
  interval_cases m <;> decide

theorem isValidBsDate_iff (y m d : Nat) :
    isValidBsDate y m d = true ↔
      (BS_MIN_YEAR ≤ y ∧ y ≤ BS_MAX_YEAR ∧ 1 ≤ m ∧ m ≤ 12 ∧ 1 ≤ d ∧
        d ≤ monthLenN y m) := by
  by_cases hy : y < BS_MIN_YEAR ∨ y > BS_MAX_YEAR
  · rw [isValidBsDate, if_pos hy]
    simp only [Bool.false_eq_true, false_iff]
    omega
  · rw [isValidBsDate, if_neg hy]
    by_cases hm : m < 1 ∨ m > 12
    · rw [if_pos hm]
      simp only [Bool.false_eq_true, false_iff]
      omega
    · rw [if_neg hm]
      have hdata : BS_CALENDAR_DATA y = some bsMonthLengths := by
        rw [BS_CALENDAR_DATA, if_pos]
        constructor <;> omega
      have hg : getDaysInBsMonth y m = .ok (bsMonthLengths.getD (m - 1) 0) := by
        rw [getDaysInBsMonth, hdata]
        simp [hm]
        omega
      have hlen : monthLenN y m = bsMonthLengths.getD (m - 1) 0 := by
        rw [monthLenN, hdata]
        rfl
      rw [hg, hlen]
      simp only [Bool.and_eq_true, decide_eq_true_eq]
      omega

/-- C10: both formatters substitute only the first occurrence of the DD
token: in the pattern DD DD the second occurrence survives as literal text. -/
theorem format_first_occurrence_only :
    ∀ (dt : NepaliDate) (ed : EnglishDate),
      formatBsDate dt "DD DD" Language.en =
        String.mk (padStart2 '0' (decimalString dt.day) ++ (' ' :: 'D' :: 'D' :: []))
      ∧ formatAdDate ed "DD DD" =
        String.mk (padStart2 '0' (decimalString ed.day) ++ (' ' :: 'D' :: 'D' :: [])) := by
  intro dt ed
  constructor
  · unfold formatBsDate
    dsimp only
    rw [duplicated_dd_chain _ _ _ _ _ _ _ _
      (all_digits_padStart2 _ _ (by decide)
        (fun c hc => mem_decimalString_isAsciiDigit dt.day c hc))]
  · unfold formatAdDate
    dsimp only
    rw [duplicated_dd_chain _ _ _ _ _ _ _ _
      (all_digits_padStart2 _ _ (by decide)
        (fun c hc => mem_decimalString_isAsciiDigit ed.day c hc))]

/-- C8: on every valid BS date the canonical format call produces the
ASCII-digit string YYYY-MM-DD, and parseBsDate recovers the date exactly. -/
theorem formatBsDate_parse_canonical :
    ∀ y m d : Nat, isValidBsDate y m d = true →
      formatBsDate ⟨y, m, d⟩ "YYYY-MM-DD" Language.en =
        String.mk (decimalString y ++ '-' ::
          (padStart2 '0' (decimalString m) ++ '-' :: padStart2 '0' (decimalString d)))
      ∧ parseBsDate (formatBsDate ⟨y, m, d⟩ "YYYY-MM-DD" Language.en) =
        some ⟨y, m, d⟩ := by
  intro y m d hv
  obtain ⟨hy1, hy2, hm1, hm2, hd1, hd2⟩ := (isValidBsDate_iff y m d).mp hv
  have hysdig : ∀ c ∈ decimalString y, isAsciiDigit c = true :=
    fun c hc => mem_decimalString_isAsciiDigit y c hc
  have hmmdig : ∀ c ∈ padStart2 '0' (decimalString m), isAsciiDigit c = true :=
    all_digits_padStart2 _ _ (by decide)
      (fun c hc => mem_decimalString_isAsciiDigit m c hc)
  have hdddig : ∀ c ∈ padStart2 '0' (decimalString d), isAsciiDigit c = true :=
    all_digits_padStart2 _ _ (by decide)
      (fun c hc => mem_decimalString_isAsciiDigit d c hc)
  have hfmt : formatBsDate ⟨y, m, d⟩ "YYYY-MM-DD" Language.en =
      String.mk (decimalString y ++ '-' ::
        (padStart2 '0' (decimalString m) ++ '-' :: padStart2 '0' (decimalString d))) := by
    unfold formatBsDate
    dsimp only
    rw [canonical_chain _ _ _ _ _ _ _ _ hysdig hmmdig hdddig]
  refine ⟨hfmt, ?_⟩
  rw [hfmt]
  have hy1n : 2000 ≤ y := hy1
  have hy2n : y ≤ 2100 := hy2
  have hyslen : (decimalString y).length = 4 :=
    decimalString_length_four y (by omega) (by omega)
  have hmmlen : (padStart2 '0' (decimalString m)).length = 2 :=
    padStart2_length _ _ (decimalString_length_pos m)
      (decimalString_length_le_two m (by omega))
  have hddle : d ≤ 99 := by
    have := monthLenN_le_32 y m
    omega
  have hddlen : (padStart2 '0' (decimalString d)).length = 2 :=
    padStart2_length _ _ (decimalString_length_pos d)
      (decimalString_length_le_two d hddle)
  have ht1 : takeDigits (decimalString y ++ '-' ::
      (padStart2 '0' (decimalString m) ++ '-' :: padStart2 '0' (decimalString d))) =
      (decimalString y,
        '-' :: (padStart2 '0' (decimalString m) ++ '-' :: padStart2 '0' (decimalString d))) :=
    takeDigits_append_not_digit _ _ '-' hysdig (by decide)
  have ht2 : takeDigits (padStart2 '0' (decimalString m) ++ '-' ::
      padStart2 '0' (decimalString d)) =
      (padStart2 '0' (decimalString m), '-' :: padStart2 '0' (decimalString d)) :=
    takeDigits_append_not_digit _ _ '-' hmmdig (by decide)
  have ht3 : takeDigits (padStart2 '0' (decimalString d)) =
      (padStart2 '0' (decimalString d), []) :=
    takeDigits_all_digits _ hdddig
  unfold parseBsDate
  dsimp only
  rw [ht1]
  dsimp only
  rw [hyslen]
  rw [if_pos rfl]
  try dsimp only
  rw [if_pos rfl]
  try dsimp only
  rw [ht2]
  try dsimp only
  rw [hmmlen]
  rw [if_pos (by omega)]
  try dsimp only
  rw [if_pos rfl]
  try dsimp only
  rw [ht3]
  try dsimp only
  rw [hddlen]
  rw [if_pos (⟨by omega, by omega, rfl⟩ : 1 ≤ 2 ∧ 2 ≤ 2 ∧ ([] : List Char) = [])]
  rw [digitsToVal_decimalString, digitsToVal_padStart2_zero, digitsToVal_padStart2_zero]

theorem formatBsDate_parse_canonical_witness :
    isValidBsDate 2082 10 15 = true ∧
      parseBsDate (formatBsDate ⟨2082, 10, 15⟩ "YYYY-MM-DD" Language.en) =
        some ⟨2082, 10, 15⟩ :=
  ⟨by decide, (formatBsDate_parse_canonical 2082 10 15 (by decide)).2⟩

/-! ### BS day-counting lemmas -/

/-- A BS triple that denotes a real table date (numeral form of the
isValidBsDate conditions). -/
def bsValidState (y m d : Nat) : Prop :=
  2000 ≤ y ∧ y ≤ 2100 ∧ 1 ≤ m ∧ m ≤ 12 ∧ 1 ≤ d ∧ d ≤ monthLenN y m

theorem isValidBsDate_iff_state (y m d : Nat) :
    isValidBsDate y m d = true ↔ bsValidState y m d := by
  unfold bsValidState
  exact isValidBsDate_iff y m d

/-- The largest day offset representable in the table, the offset of the
last day of the last supported year. -/
def maxBsOffset : Nat :=
  countDaysFromBsReference BS_MAX_YEAR 12 (monthLenN BS_MAX_YEAR 12)

theorem monthLenN_in_range (y k : Nat) (h1 : 2000 ≤ y) (h2 : y ≤ 2100) :
    monthLenN y k = bsMonthLengths.getD (k - 1) 0 := by
  rw [monthLenN, BS_CALENDAR_DATA, if_pos ⟨h1, h2⟩]
  rfl

theorem yearTotal_eq_monthSum (y : Nat) (h1 : 2000 ≤ y) (h2 : y ≤ 2100) :
    yearTotalN y = monthSumBefore y 12 := by
  have hml := fun k => monthLenN_in_range y k h1 h2
  rw [yearTotalN, BS_CALENDAR_DATA, if_pos ⟨h1, h2⟩]
  simp [monthSumBefore, hml, bsMonthLengths]

theorem countDays_day_add (y m d k : Nat) (hd : 1 ≤ d) :
    countDaysFromBsReference y m (d + k) = countDaysFromBsReference y m d + k := by
  unfold countDaysFromBsReference
  omega

theorem countDays_month_advance (y m d : Nat) (hv : bsValidState y m d) (hm : m ≤ 11) :
    countDaysFromBsReference y (m + 1) 1 =
      countDaysFromBsReference y m d + (monthLenN y m - d + 1) := by
  obtain ⟨hy1, hy2, hm1, hm2, hd1, hd2⟩ := hv
  obtain ⟨k, rfl⟩ : ∃ k, m = k + 1 := ⟨m - 1, by omega⟩
  unfold countDaysFromBsReference
  simp only [Nat.add_sub_cancel]
  have hstep : monthSumBefore y (k + 1) = monthSumBefore y k + monthLenN y (k + 1) := rfl
  rw [hstep]
  omega

theorem countDays_year_advance (y d : Nat) (hv : bsValidState y 12 d) :
    countDaysFromBsReference (y + 1) 1 1 =
      countDaysFromBsReference y 12 d + (monthLenN y 12 - d + 1) := by
  obtain ⟨hy1, hy2, _, _, hd1, hd2⟩ := hv
  obtain ⟨k, rfl⟩ : ∃ k, y = 2000 + k := ⟨y - 2000, by omega⟩
  unfold countDaysFromBsReference
  have e1 : (2000 + k + 1) - BS_REFERENCE.year = k + 1 := by
    show _ - 2000 = _
    omega
  have e2 : (2000 + k) - BS_REFERENCE.year = k := by
    show _ - 2000 = _
    omega
  rw [e1, e2]
  have e3 : sumYearTotals (k + 1) = sumYearTotals k + yearTotalN (2000 + k) := rfl
  rw [e3, yearTotal_eq_monthSum (2000 + k) (by omega) (by omega)]
  simp only [show (12 : Nat) - 1 = 11 from rfl, show (1 : Nat) - 1 = 0 from rfl]
  have e4 : monthSumBefore (2000 + k) 12 =
      monthSumBefore (2000 + k) 11 + monthLenN (2000 + k) 12 := rfl
  have e5 : monthSumBefore (2000 + k + 1) 0 = 0 := rfl
  rw [e4, e5]
  omega

theorem monthSumBefore_mono (y : Nat) (k k' : Nat) (h : k ≤ k') :
    monthSumBefore y k ≤ monthSumBefore y k' := by
  induction h with
  | refl => exact Nat.le_refl _
  | step h ih =>
    exact Nat.le_trans ih (Nat.le_add_right _ _)

theorem sumYearTotals_mono (k k' : Nat) (h : k ≤ k') :
    sumYearTotals k ≤ sumYearTotals k' := by
  induction h with
  | refl => exact Nat.le_refl _
  | step h ih =>
    exact Nat.le_trans ih (Nat.le_add_right _ _)

theorem countDays_lt_next_year (y m d : Nat) (hv : bsValidState y m d) :
    countDaysFromBsReference y m d < sumYearTotals (y - 2000 + 1) := by
  obtain ⟨hy1, hy2, hm1, hm2, hd1, hd2⟩ := hv
  have e : sumYearTotals (y - 2000 + 1) =
      sumYearTotals (y - 2000) + yearTotalN y := by
    have h2000 : BS_REFERENCE.year + (y - 2000) = y := by
      show 2000 + _ = _
      omega
    calc sumYearTotals (y - 2000 + 1) =
        sumYearTotals (y - 2000) + yearTotalN (BS_REFERENCE.year + (y - 2000)) := rfl
      _ = sumYearTotals (y - 2000) + yearTotalN y := by rw [h2000]
  rw [e, yearTotal_eq_monthSum y hy1 hy2]
  unfold countDaysFromBsReference
  have hsy : y - BS_REFERENCE.year = y - 2000 := rfl
  rw [hsy]
  have h1 : monthSumBefore y (m - 1) + monthLenN y m ≤ monthSumBefore y 12 := by
    have hstep : monthSumBefore y ((m - 1) + 1) =
        monthSumBefore y (m - 1) + monthLenN y ((m - 1) + 1) := rfl
    have hm' : (m - 1) + 1 = m := by omega
    rw [hm'] at hstep
    rw [← hstep]
    exact monthSumBefore_mono y m 12 hm2
  omega

theorem countDays_le_max (y m d : Nat) (hv : bsValidState y m d) :
    countDaysFromBsReference y m d ≤ maxBsOffset := by
  have h1 := countDays_lt_next_year y m d hv
  obtain ⟨hy1, hy2, _, _, _, _⟩ := hv
  have h2 : sumYearTotals (y - 2000 + 1) ≤ sumYearTotals 101 :=
    sumYearTotals_mono _ _ (by omega)
  have h3 : sumYearTotals 101 = maxBsOffset + 1 := by decide
  omega

theorem countDays_strict_mono (y m d y' m' d' : Nat) (hv : bsValidState y m d)
    (hv' : bsValidState y' m' d')
    (hlt : y < y' ∨ (y = y' ∧ (m < m' ∨ (m = m' ∧ d < d')))) :
    countDaysFromBsReference y m d < countDaysFromBsReference y' m' d' := by
  obtain ⟨hy1, hy2, hm1, hm2, hd1, hd2⟩ := hv
  obtain ⟨hy1', hy2', hm1', hm2', hd1', hd2'⟩ := hv'
  rcases hlt with hy | ⟨rfl, hrest⟩
  · have h1 := countDays_lt_next_year y m d ⟨hy1, hy2, hm1, hm2, hd1, hd2⟩
    have h2 : sumYearTotals (y - 2000 + 1) ≤ sumYearTotals (y' - 2000) :=
      sumYearTotals_mono _ _ (by omega)
    have h3 : sumYearTotals (y' - 2000) ≤ countDaysFromBsReference y' m' d' := by
      unfold countDaysFromBsReference
      have : y' - BS_REFERENCE.year = y' - 2000 := rfl
      rw [this]
      omega
    omega
  · unfold countDaysFromBsReference
    rcases hrest with hm | ⟨rfl, hd⟩
    · have h1 : monthSumBefore y (m - 1) + monthLenN y m ≤ monthSumBefore y (m' - 1) := by
        have hstep : monthSumBefore y ((m - 1) + 1) =
            monthSumBefore y (m - 1) + monthLenN y ((m - 1) + 1) := rfl
        have hmeq : (m - 1) + 1 = m := by omega
        rw [hmeq] at hstep
        rw [← hstep]
        exact monthSumBefore_mono y m (m' - 1) (by omega)
      omega
    · omega

theorem countDays_inj (y m d y' m' d' : Nat) (hv : bsValidState y m d)
    (hv' : bsValidState y' m' d')
    (heq : countDaysFromBsReference y m d = countDaysFromBsReference y' m' d') :
    y = y' ∧ m = m' ∧ d = d' := by
  rcases Nat.lt_trichotomy y y' with hy | rfl | hy
  · have := countDays_strict_mono y m d y' m' d' hv hv' (Or.inl hy)
    omega
  · rcases Nat.lt_trichotomy m m' with hm | rfl | hm
    · have := countDays_strict_mono y m d y m' d' hv hv' (Or.inr ⟨rfl, Or.inl hm⟩)
      omega
    · rcases Nat.lt_trichotomy d d' with hd | rfl | hd
      · have := countDays_strict_mono y m d y m d' hv hv' (Or.inr ⟨rfl, Or.inr ⟨rfl, hd⟩⟩)
        omega
      · exact ⟨rfl, rfl, rfl⟩
      · have := countDays_strict_mono y m d' y m d hv' hv (Or.inr ⟨rfl, Or.inr ⟨rfl, hd⟩⟩)
        omega
    · have := countDays_strict_mono y m' d' y m d hv' hv (Or.inr ⟨rfl, Or.inl hm⟩)
      omega
  · have := countDays_strict_mono y' m' d' y m d hv' hv (Or.inl hy)
    omega

/-! ### BS stepping loop specification -/

theorem bsAddDaysCore_spec :
    ∀ fuel n y m d, n ≤ fuel → bsValidState y m d →
      (∃ r, bsAddDaysCore fuel y m d n = .ok r ∧ bsValidState r.year r.month r.day ∧
        countDaysFromBsReference r.year r.month r.day =
          countDaysFromBsReference y m d + n)
      ∨ (bsAddDaysCore fuel y m d n = .error .bsYearOverflow ∧
          maxBsOffset < countDaysFromBsReference y m d + n) := by
  intro fuel
  induction fuel with
  | zero =>
    intro n y m d hn hv
    left
    have h0 : n = 0 := by omega
    subst h0
    exact ⟨⟨y, m, d⟩, rfl, hv, by dsimp only; omega⟩
  | succ fuel ih =>
    intro n y m d hn hv
    by_cases h0 : n = 0
    · subst h0
      left
      refine ⟨⟨y, m, d⟩, ?_, hv, by dsimp only; omega⟩
      rw [bsAddDaysCore, if_pos rfl]
    · have hvc := hv
      obtain ⟨hy1, hy2, hm1, hm2, hd1, hd2⟩ := hvc
      rw [bsAddDaysCore, if_neg h0]
      dsimp only
      by_cases hfits : n ≤ monthLenN y m - d
      · rw [if_pos hfits]
        left
        refine ⟨⟨y, m, d + n⟩, rfl, ?_, ?_⟩
        · dsimp only
          exact ⟨hy1, hy2, hm1, hm2, by omega, by omega⟩
        · dsimp only
          exact countDays_day_add y m d n hd1
      · rw [if_neg hfits]
        by_cases hm12 : m + 1 > 12
        · rw [if_pos hm12]
          have hmeq : m = 12 := by omega
          subst hmeq
          by_cases hymax : y + 1 > BS_MAX_YEAR
          · rw [if_pos hymax]
            right
            refine ⟨rfl, ?_⟩
            have hymax' : y + 1 > 2100 := hymax
            have hyeq : y = 2100 := by omega
            have hL : monthLenN y 12 = d + (monthLenN y 12 - d) := by omega
            have hday : countDaysFromBsReference y 12 (monthLenN y 12) =
                countDaysFromBsReference y 12 d + (monthLenN y 12 - d) := by
              conv_lhs => rw [hL]
              exact countDays_day_add y 12 d _ hd1
            have hmax : maxBsOffset =
                countDaysFromBsReference y 12 (monthLenN y 12) := by
              rw [maxBsOffset]
              subst hyeq
              rfl
            omega
          · rw [if_neg hymax]
            have hymax' : ¬ y + 1 > 2100 := hymax
            have hv' : bsValidState (y + 1) 1 1 :=
              ⟨by omega, by omega, Nat.le_refl 1, by omega, Nat.le_refl 1,
                monthLenN_pos (y + 1) 1 (by omega) (by omega) (by omega) (by omega)⟩
            have hrec := ih (n - (monthLenN y 12 - d + 1)) (y + 1) 1 1 (by omega) hv'
            have hadv := countDays_year_advance y d ⟨hy1, hy2, hm1, hm2, hd1, hd2⟩
            rcases hrec with ⟨r, hr, hrv, hroff⟩ | ⟨hr, hroff⟩
            · left
              refine ⟨r, hr, hrv, ?_⟩
              rw [hroff, hadv]
              omega
            · right
              refine ⟨hr, ?_⟩
              rw [hadv] at hroff
              omega
        · rw [if_neg hm12]
          have hv' : bsValidState y (m + 1) 1 :=
            ⟨hy1, hy2, by omega, by omega, Nat.le_refl 1,
              monthLenN_pos y (m + 1) (by omega) (by omega) (by omega) (by omega)⟩
          have hrec := ih (n - (monthLenN y m - d + 1)) y (m + 1) 1 (by omega) hv'
          have hadv := countDays_month_advance y m d ⟨hy1, hy2, hm1, hm2, hd1, hd2⟩
            (by omega)
          rcases hrec with ⟨r, hr, hrv, hroff⟩ | ⟨hr, hroff⟩
          · left
            refine ⟨r, hr, hrv, ?_⟩
            rw [hroff, hadv]
            omega
          · right
            refine ⟨hr, ?_⟩
            rw [hadv] at hroff
            omega

theorem bsAddDays_spec (y m d n : Nat) (hv : bsValidState y m d) :
    (∃ r, bsAddDays y m d n = .ok r ∧ bsValidState r.year r.month r.day ∧
      countDaysFromBsReference r.year r.month r.day =
        countDaysFromBsReference y m d + n)
    ∨ (bsAddDays y m d n = .error .bsYearOverflow ∧
        maxBsOffset < countDaysFromBsReference y m d + n) :=
  bsAddDaysCore_spec n n y m d (Nat.le_refl n) hv

/-! ### Gregorian day-number lemmas -/

/-- A real proleptic-Gregorian date with positive year, in Prop form. -/
def adValidState (y m d : Nat) : Prop :=
  1 ≤ y ∧ 1 ≤ m ∧ m ≤ 12 ∧ 1 ≤ d ∧ d ≤ getDaysInAdMonth y m

theorem isRealAdDay_iff_state (y m d : Nat) :
    isRealAdDay y m d = true ↔ adValidState y m d := by
  unfold isRealAdDay adValidState
  simp [Bool.and_eq_true, decide_eq_true_eq, and_assoc]

theorem adMonthLen_pos (y m : Nat) (h1 : 1 ≤ m) (h2 : m ≤ 12) :
    1 ≤ getDaysInAdMonth y m := by
  unfold getDaysInAdMonth
  split_ifs with h
  · omega
  · interval_cases m <;> decide

theorem adMonthLen_le_31 (y m : Nat) : getDaysInAdMonth y m ≤ 31 := by
  unfold getDaysInAdMonth
  split_ifs with h
  · omega
  · exact getD_le_of_all _ 31 (by decide) (m - 1)

theorem adMonthSum_12 (y : Nat) :
    adMonthSumBefore y 12 = if isLeapYear y then 366 else 365 := by
  have e : adMonthSumBefore y 12 =
      0 + getDaysInAdMonth y 1 + getDaysInAdMonth y 2 + getDaysInAdMonth y 3 +
        getDaysInAdMonth y 4 + getDaysInAdMonth y 5 + getDaysInAdMonth y 6 +
        getDaysInAdMonth y 7 + getDaysInAdMonth y 8 + getDaysInAdMonth y 9 +
        getDaysInAdMonth y 10 + getDaysInAdMonth y 11 + getDaysInAdMonth y 12 := rfl
  have h2 : getDaysInAdMonth y 2 = if isLeapYear y then 29 else 28 := by
    unfold getDaysInAdMonth
    by_cases h : isLeapYear y <;> simp [h]
  rw [e, h2]
  rw [show getDaysInAdMonth y 1 = 31 from rfl, show getDaysInAdMonth y 3 = 31 from rfl,
    show getDaysInAdMonth y 4 = 30 from rfl, show getDaysInAdMonth y 5 = 31 from rfl,
    show getDaysInAdMonth y 6 = 30 from rfl, show getDaysInAdMonth y 7 = 31 from rfl,
    show getDaysInAdMonth y 8 = 31 from rfl, show getDaysInAdMonth y 9 = 30 from rfl,
    show getDaysInAdMonth y 10 = 31 from rfl, show getDaysInAdMonth y 11 = 30 from rfl,
    show getDaysInAdMonth y 12 = 31 from rfl]
  split_ifs <;> norm_num

set_option maxHeartbeats 1600000 in
theorem daysBeforeAdYear_succ (y : Nat) (hy : 1 ≤ y) :
    daysBeforeAdYear (y + 1) = daysBeforeAdYear y + adMonthSumBefore y 12 := by
  rw [adMonthSum_12]
  by_cases h : isLeapYear y
  · rw [if_pos h]
    simp only [isLeapYear, Bool.or_eq_true, Bool.and_eq_true, beq_iff_eq, bne_iff_ne] at h
    unfold daysBeforeAdYear
    obtain ⟨x, rfl⟩ : ∃ x, y = x + 1 := ⟨y - 1, by omega⟩
    simp only [Nat.add_sub_cancel]
    omega
  · rw [if_neg h]
    simp only [isLeapYear, Bool.or_eq_true, Bool.and_eq_true, beq_iff_eq, bne_iff_ne] at h
    push_neg at h
    unfold daysBeforeAdYear
    obtain ⟨x, rfl⟩ : ∃ x, y = x + 1 := ⟨y - 1, by omega⟩
    simp only [Nat.add_sub_cancel]
    omega

theorem daysBeforeAdYear_le_succ (k : Nat) :
    daysBeforeAdYear k ≤ daysBeforeAdYear (k + 1) := by
  match k with
  | 0 => decide
  | k2 + 1 =>
    rw [daysBeforeAdYear_succ (k2 + 1) (by omega)]
    exact Nat.le_add_right _ _

theorem daysBeforeAdYear_mono (y y' : Nat) (h : y ≤ y') :
    daysBeforeAdYear y ≤ daysBeforeAdYear y' := by
  induction h with
  | refl => exact Nat.le_refl _
  | step hk ih => exact Nat.le_trans ih (daysBeforeAdYear_le_succ _)

theorem greg_day_add (y m d k : Nat) (hd : 1 ≤ d) :
    gregDayNumber y m (d + k) = gregDayNumber y m d + k := by
  unfold gregDayNumber
  omega

theorem adMonthSumBefore_mono (y : Nat) (k k' : Nat) (h : k ≤ k') :
    adMonthSumBefore y k ≤ adMonthSumBefore y k' := by
  induction h with
  | refl => exact Nat.le_refl _
  | step h ih =>
    exact Nat.le_trans ih (Nat.le_add_right _ _)

theorem greg_month_advance (y m d : Nat) (hv : adValidState y m d) (hm : m ≤ 11) :
    gregDayNumber y (m + 1) 1 =
      gregDayNumber y m d + (getDaysInAdMonth y m - d + 1) := by
  obtain ⟨hy, hm1, hm2, hd1, hd2⟩ := hv
  obtain ⟨k, rfl⟩ : ∃ k, m = k + 1 := ⟨m - 1, by omega⟩
  unfold gregDayNumber
  simp only [Nat.add_sub_cancel]
  have hstep : adMonthSumBefore y (k + 1) =
      adMonthSumBefore y k + getDaysInAdMonth y (k + 1) := rfl
  rw [hstep]
  omega

theorem greg_year_advance (y d : Nat) (hv : adValidState y 12 d) :
    gregDayNumber (y + 1) 1 1 =
      gregDayNumber y 12 d + (getDaysInAdMonth y 12 - d + 1) := by
  obtain ⟨hy, _, _, hd1, hd2⟩ := hv
  unfold gregDayNumber
  rw [daysBeforeAdYear_succ y hy]
  simp only [show (12 : Nat) - 1 = 11 from rfl, show (1 : Nat) - 1 = 0 from rfl]
  have e4 : adMonthSumBefore y 12 = adMonthSumBefore y 11 + getDaysInAdMonth y 12 := rfl
  have e5 : adMonthSumBefore (y + 1) 0 = 0 := rfl
  rw [e4, e5]
  omega

theorem greg_lt_daysBefore_succ (y m d : Nat) (hv : adValidState y m d) :
    gregDayNumber y m d < daysBeforeAdYear (y + 1) := by
  obtain ⟨hy, hm1, hm2, hd1, hd2⟩ := hv
  rw [daysBeforeAdYear_succ y hy]
  unfold gregDayNumber
  have h1 : adMonthSumBefore y (m - 1) + getDaysInAdMonth y m ≤ adMonthSumBefore y 12 := by
    have hstep : adMonthSumBefore y ((m - 1) + 1) =
        adMonthSumBefore y (m - 1) + getDaysInAdMonth y ((m - 1) + 1) := rfl
    have hmeq : (m - 1) + 1 = m := by omega
    rw [hmeq] at hstep
    rw [← hstep]
    exact adMonthSumBefore_mono y m 12 hm2
  omega

theorem greg_strict_mono (y m d y' m' d' : Nat) (hv : adValidState y m d)
    (hv' : adValidState y' m' d')
    (hlt : y < y' ∨ (y = y' ∧ (m < m' ∨ (m = m' ∧ d < d')))) :
    gregDayNumber y m d < gregDayNumber y' m' d' := by
  obtain ⟨hy, hm1, hm2, hd1, hd2⟩ := hv
  obtain ⟨hy', hm1', hm2', hd1', hd2'⟩ := hv'
  rcases hlt with hyy | ⟨rfl, hrest⟩
  · have h1 := greg_lt_daysBefore_succ y m d ⟨hy, hm1, hm2, hd1, hd2⟩
    have h2 : daysBeforeAdYear (y + 1) ≤ daysBeforeAdYear y' :=
      daysBeforeAdYear_mono _ _ (by omega)
    have h3 : daysBeforeAdYear y' ≤ gregDayNumber y' m' d' := by
      unfold gregDayNumber
      omega
    omega
  · unfold gregDayNumber
    rcases hrest with hm | ⟨rfl, hd⟩
    · have h1 : adMonthSumBefore y (m - 1) + getDaysInAdMonth y m ≤
          adMonthSumBefore y (m' - 1) := by
        have hstep : adMonthSumBefore y ((m - 1) + 1) =
            adMonthSumBefore y (m - 1) + getDaysInAdMonth y ((m - 1) + 1) := rfl
        have hmeq : (m - 1) + 1 = m := by omega
        rw [hmeq] at hstep
        rw [← hstep]
        exact adMonthSumBefore_mono y m (m' - 1) (by omega)
      omega
    · omega

theorem greg_inj (y m d y' m' d' : Nat) (hv : adValidState y m d)
    (hv' : adValidState y' m' d')
    (heq : gregDayNumber y m d = gregDayNumber y' m' d') :
    y = y' ∧ m = m' ∧ d = d' := by
  rcases Nat.lt_trichotomy y y' with hyy | rfl | hyy
  · have := greg_strict_mono y m d y' m' d' hv hv' (Or.inl hyy)
    omega
  · rcases Nat.lt_trichotomy m m' with hm | rfl | hm
    · have := greg_strict_mono y m d y m' d' hv hv' (Or.inr ⟨rfl, Or.inl hm⟩)
      omega
    · rcases Nat.lt_trichotomy d d' with hd | rfl | hd
      · have := greg_strict_mono y m d y m d' hv hv' (Or.inr ⟨rfl, Or.inr ⟨rfl, hd⟩⟩)
        omega
      · exact ⟨rfl, rfl, rfl⟩
      · have := greg_strict_mono y m d' y m d hv' hv (Or.inr ⟨rfl, Or.inr ⟨rfl, hd⟩⟩)
        omega
    · have := greg_strict_mono y m' d' y m d hv' hv (Or.inr ⟨rfl, Or.inl hm⟩)
      omega
  · have := greg_strict_mono y' m' d' y m d hv' hv (Or.inl hyy)
    omega

/-! ### AD stepping loop specification -/

theorem adAddDaysCore_spec :
    ∀ fuel n y m d, n ≤ fuel → adValidState y m d →
      adValidState (adAddDaysCore fuel y m d n).year (adAddDaysCore fuel y m d n).month
        (adAddDaysCore fuel y m d n).day
      ∧ gregDayNumber (adAddDaysCore fuel y m d n).year (adAddDaysCore fuel y m d n).month
          (adAddDaysCore fuel y m d n).day = gregDayNumber y m d + n
      ∧ y ≤ (adAddDaysCore fuel y m d n).year := by
  intro fuel
  induction fuel with
  | zero =>
    intro n y m d hn hv
    have h0 : n = 0 := by omega
    subst h0
    exact ⟨hv, by dsimp only [adAddDaysCore]; omega, Nat.le_refl y⟩
  | succ fuel ih =>
    intro n y m d hn hv
    by_cases h0 : n = 0
    · subst h0
      rw [adAddDaysCore, if_pos rfl]
      exact ⟨hv, by dsimp only; omega, Nat.le_refl y⟩
    · have hvc := hv
      obtain ⟨hy, hm1, hm2, hd1, hd2⟩ := hvc
      rw [adAddDaysCore, if_neg h0]
      dsimp only
      by_cases hfits : n ≤ getDaysInAdMonth y m - d
      · rw [if_pos hfits]
        refine ⟨?_, ?_, Nat.le_refl y⟩
        · dsimp only
          exact ⟨hy, hm1, hm2, by omega, by omega⟩
        · dsimp only
          exact greg_day_add y m d n hd1
      · rw [if_neg hfits]
        by_cases hm12 : m + 1 > 12
        · rw [if_pos hm12]
          have hmeq : m = 12 := by omega
          subst hmeq
          have hv' : adValidState (y + 1) 1 1 :=
            ⟨by omega, Nat.le_refl 1, by omega, Nat.le_refl 1,
              adMonthLen_pos (y + 1) 1 (by omega) (by omega)⟩
          obtain ⟨ha, hb, hc⟩ := ih (n - (getDaysInAdMonth y 12 - d + 1)) (y + 1) 1 1
            (by omega) hv'
          have hadv := greg_year_advance y d ⟨hy, hm1, hm2, hd1, hd2⟩
          exact ⟨ha, by rw [hb, hadv]; omega, by omega⟩
        · rw [if_neg hm12]
          have hv' : adValidState y (m + 1) 1 :=
            ⟨hy, by omega, by omega, Nat.le_refl 1,
              adMonthLen_pos y (m + 1) (by omega) (by omega)⟩
          obtain ⟨ha, hb, hc⟩ := ih (n - (getDaysInAdMonth y m - d + 1)) y (m + 1) 1
            (by omega) hv'
          have hadv := greg_month_advance y m d ⟨hy, hm1, hm2, hd1, hd2⟩ (by omega)
          exact ⟨ha, by rw [hb, hadv]; omega, hc⟩

theorem adAddDays_spec (y m d n : Nat) (hv : adValidState y m d) :
    adValidState (adAddDays y m d n).year (adAddDays y m d n).month
      (adAddDays y m d n).day
    ∧ gregDayNumber (adAddDays y m d n).year (adAddDays y m d n).month
        (adAddDays y m d n).day = gregDayNumber y m d + n
    ∧ y ≤ (adAddDays y m d n).year :=
  adAddDaysCore_spec n n y m d (Nat.le_refl n) hv

/-! ### Validator claim -/

theorem getDaysInBsMonth_ok_iff (y m L : Nat) :
    getDaysInBsMonth y m = .ok L ↔
      (BS_MIN_YEAR ≤ y ∧ y ≤ BS_MAX_YEAR ∧ 1 ≤ m ∧ m ≤ 12 ∧ L = monthLenN y m) := by
  by_cases hy : BS_MIN_YEAR ≤ y ∧ y ≤ BS_MAX_YEAR
  · have hdata : BS_CALENDAR_DATA y = some bsMonthLengths := by
      rw [BS_CALENDAR_DATA, if_pos hy]
    rw [getDaysInBsMonth, hdata]
    dsimp only
    by_cases hm : m < 1 ∨ m > 12
    · rw [if_pos hm]
      constructor
      · intro h
        exact absurd h (by simp)
      · intro h
        omega
    · rw [if_neg hm]
      have hlen : monthLenN y m = bsMonthLengths.getD (m - 1) 0 :=
        monthLenN_in_range y m hy.1 hy.2
      rw [← hlen]
      constructor
      · intro h
        have := (Except.ok.inj h).symm
        exact ⟨hy.1, hy.2, by omega, by omega, this⟩
      · intro h
        rw [h.2.2.2.2]
  · have hdata : BS_CALENDAR_DATA y = none := by
      rw [BS_CALENDAR_DATA, if_neg hy]
    rw [getDaysInBsMonth, hdata]
    dsimp only
    constructor
    · intro h
      exact absurd h (by simp)
    · intro h
      exact absurd ⟨h.1, h.2.1⟩ hy

/-- C4: isValidBsDate is total and true exactly on the in-range triples whose
day lies within the table month length; the table boundary day is valid and
its successor is not. -/
theorem isValidBsDate_total_boundary :
    ∀ y m d : Nat,
      (isValidBsDate y m d = true ↔
        ∃ L, getDaysInBsMonth y m = Except.ok L ∧ BS_MIN_YEAR ≤ y ∧ y ≤ BS_MAX_YEAR ∧
          1 ≤ m ∧ m ≤ 12 ∧ 1 ≤ d ∧ d ≤ L)
      ∧ (∀ L, getDaysInBsMonth y m = Except.ok L →
          isValidBsDate y m L = true ∧ isValidBsDate y m (L + 1) = false) := by
  intro y m d
  constructor
  · rw [isValidBsDate_iff]
    constructor
    · rintro ⟨h1, h2, h3, h4, h5, h6⟩
      exact ⟨monthLenN y m, (getDaysInBsMonth_ok_iff y m _).mpr ⟨h1, h2, h3, h4, rfl⟩,
        h1, h2, h3, h4, h5, h6⟩
    · rintro ⟨L, hL, h1, h2, h3, h4, h5, h6⟩
      obtain ⟨_, _, _, _, hLe⟩ := (getDaysInBsMonth_ok_iff y m L).mp hL
      exact ⟨h1, h2, h3, h4, h5, by omega⟩
  · intro L hL
    obtain ⟨h1, h2, h3, h4, hLe⟩ := (getDaysInBsMonth_ok_iff y m L).mp hL
    have hpos := monthLenN_pos y m h1 h2 h3 h4
    constructor
    · rw [isValidBsDate_iff]
      exact ⟨h1, h2, h3, h4, by omega, by omega⟩
    · have hnot : ¬ (isValidBsDate y m (L + 1) = true) := by
        rw [isValidBsDate_iff]
        rintro ⟨_, _, _, _, _, hcontra⟩
        omega
      simpa using hnot

theorem isValidBsDate_total_boundary_witness :
    isValidBsDate 2082 10 30 = true ∧ isValidBsDate 2082 10 31 = false :=
  (isValidBsDate_total_boundary 2082 10 1).2 30 (by decide)

/-! ### Round-trip claims -/

theorem anchor_bsValid :
    bsValidState BS_REFERENCE.year BS_REFERENCE.month BS_REFERENCE.day := by
  unfold bsValidState
  decide

theorem anchor_adValid :
    adValidState AD_REFERENCE.year AD_REFERENCE.month AD_REFERENCE.day := by
  unfold adValidState
  decide

theorem countDays_anchor :
    countDaysFromBsReference BS_REFERENCE.year BS_REFERENCE.month BS_REFERENCE.day = 0 :=
  rfl

/-- C1: converting any valid BS date to AD with bsToAd and back with adToBs
returns the original BS triple. -/
theorem bsToAd_adToBs_roundtrip :
    ∀ y m d : Nat, isValidBsDate y m d = true →
      (bsToAd y m d).bind (fun a => adToBs a.year a.month a.day) =
        Except.ok (⟨y, m, d⟩ : NepaliDate) := by
  intro y m d hv
  have hvs : bsValidState y m d := (isValidBsDate_iff_state y m d).mp hv
  rw [bsToAd, if_neg (by simp [hv])]
  set n := countDaysFromBsReference y m d with hn
  set a := adAddDays AD_REFERENCE.year AD_REFERENCE.month AD_REFERENCE.day n with ha
  show adToBs a.year a.month a.day = Except.ok ⟨y, m, d⟩
  obtain ⟨hav, hgreg, hyear⟩ :=
    adAddDays_spec AD_REFERENCE.year AD_REFERENCE.month AD_REFERENCE.day n anchor_adValid
  rw [← ha] at hav hgreg hyear
  have hrt : adDateRoundTrips a.year a.month a.day = true := by
    unfold adDateRoundTrips
    rw [Bool.and_eq_true, decide_eq_true_eq]
    refine ⟨?_, (isRealAdDay_iff_state _ _ _).mpr hav⟩
    have hy1943 : (1943 : Nat) ≤ a.year := hyear
    omega
  rw [adToBs, if_neg (by simp [hrt])]
  dsimp only
  have hdiff : (gregDayNumber a.year a.month a.day : Int) -
      (gregDayNumber AD_REFERENCE.year AD_REFERENCE.month AD_REFERENCE.day : Int) =
        (n : Int) := by
    rw [hgreg]
    push_cast
    ring
  rw [hdiff, if_neg (by omega), Int.toNat_natCast]
  rcases bsAddDays_spec BS_REFERENCE.year BS_REFERENCE.month BS_REFERENCE.day n
      anchor_bsValid with ⟨r, hr, hrv, hroff⟩ | ⟨hr, hroff⟩
  · rw [hr]
    rw [countDays_anchor] at hroff
    obtain ⟨e1, e2, e3⟩ := countDays_inj r.year r.month r.day y m d hrv hvs
      (by rw [hroff]; omega)
    obtain ⟨ry, rm, rd⟩ := r
    dsimp only at e1 e2 e3
    subst e1
    subst e2
    subst e3
    rfl
  · exfalso
    have hle := countDays_le_max y m d hvs
    rw [countDays_anchor] at hroff
    omega

theorem bsToAd_adToBs_roundtrip_witness :
    isValidBsDate 2000 1 2 = true ∧
      (bsToAd 2000 1 2).bind (fun a => adToBs a.year a.month a.day) =
        Except.ok (⟨2000, 1, 2⟩ : NepaliDate) :=
  ⟨by decide, bsToAd_adToBs_roundtrip 2000 1 2 (by decide)⟩

/-- C2: on every AD date inside the supported span, witnessed by the fact
that adToBs returns a BS date rather than raising, bsToAd maps that BS date
back to the original AD triple. -/
theorem adToBs_bsToAd_roundtrip :
    ∀ (y m d : Nat) (b : NepaliDate), adToBs y m d = Except.ok b →
      bsToAd b.year b.month b.day = Except.ok (⟨y, m, d⟩ : EnglishDate) := by
  intro y m d b h
  rw [adToBs] at h
  split at h
  case isTrue => exact absurd h (by simp)
  case isFalse h1 =>
  dsimp only at h
  split at h
  case isTrue => exact absurd h (by simp)
  case isFalse h2 =>
  have hrt : adDateRoundTrips y m d = true := not_not.mp h1
  have h100 : 100 ≤ y ∧ isRealAdDay y m d = true := by
    unfold adDateRoundTrips at hrt
    simpa [Bool.and_eq_true, decide_eq_true_eq] using hrt
  have hvs : adValidState y m d := (isRealAdDay_iff_state y m d).mp h100.2
  set diff : Int := (gregDayNumber y m d : Int) -
      (gregDayNumber AD_REFERENCE.year AD_REFERENCE.month AD_REFERENCE.day : Int)
    with hdiffdef
  have hge : (0 : Int) ≤ diff := by omega
  set n := diff.toNat with hndef
  have h3 : (n : Int) = diff := by
    rw [hndef]
    exact Int.toNat_of_nonneg hge
  rw [hdiffdef] at h3
  have hgreg : gregDayNumber y m d =
      gregDayNumber AD_REFERENCE.year AD_REFERENCE.month AD_REFERENCE.day + n := by
    omega
  rcases bsAddDays_spec BS_REFERENCE.year BS_REFERENCE.month BS_REFERENCE.day n
      anchor_bsValid with ⟨r, hr, hrv, hroff⟩ | ⟨hr, hroff⟩
  · rw [hr] at h
    obtain rfl : r = b := Except.ok.inj h
    rw [bsToAd, if_neg (by simp [(isValidBsDate_iff_state _ _ _).mpr hrv])]
    rw [countDays_anchor] at hroff
    have hn2 : countDaysFromBsReference r.year r.month r.day = n := by omega
    rw [hn2]
    obtain ⟨hav, hgreg2, hyear2⟩ :=
      adAddDays_spec AD_REFERENCE.year AD_REFERENCE.month AD_REFERENCE.day n anchor_adValid
    obtain ⟨e1, e2, e3⟩ := greg_inj _ _ _ y m d hav hvs (by rw [hgreg2, hgreg])
    set q := adAddDays AD_REFERENCE.year AD_REFERENCE.month AD_REFERENCE.day n with hq
    obtain ⟨qy, qm, qd⟩ := q
    dsimp only at e1 e2 e3
    subst e1
    subst e2
    subst e3
    rfl
  · rw [hr] at h
    exact absurd h (by simp)

theorem adToBs_bsToAd_roundtrip_witness :
    adToBs 1943 4 15 = Except.ok (⟨2000, 1, 2⟩ : NepaliDate) ∧
      bsToAd 2000 1 2 = Except.ok (⟨1943, 4, 15⟩ : EnglishDate) :=
  ⟨by decide, adToBs_bsToAd_roundtrip 1943 4 15 ⟨2000, 1, 2⟩ (by decide)⟩

/-- C5: adToBs raises an error exactly when the input is not a real
Gregorian calendar day, or denotes an absolute day strictly before the AD
reference anchor, or lies so far after the anchor that forward stepping
through the table would pass BS_MAX_YEAR; in every other case it returns a
BS date without raising. -/
theorem adToBs_error_characterization :
    ∀ y m d : Nat,
      (∃ e, adToBs y m d = Except.error e) ↔
        (¬ isRealAdDay y m d = true
          ∨ gregDayNumber y m d <
              gregDayNumber AD_REFERENCE.year AD_REFERENCE.month AD_REFERENCE.day
          ∨ gregDayNumber AD_REFERENCE.year AD_REFERENCE.month AD_REFERENCE.day +
              maxBsOffset < gregDayNumber y m d) := by
  intro y m d
  rw [adToBs]
  by_cases hrt : adDateRoundTrips y m d = true
  · rw [if_neg (by simp [hrt])]
    dsimp only
    have h100 : 100 ≤ y ∧ isRealAdDay y m d = true := by
      unfold adDateRoundTrips at hrt
      simpa [Bool.and_eq_true, decide_eq_true_eq] using hrt
    have hvs : adValidState y m d := (isRealAdDay_iff_state y m d).mp h100.2
    by_cases hlt : gregDayNumber y m d <
        gregDayNumber AD_REFERENCE.year AD_REFERENCE.month AD_REFERENCE.day
    · rw [if_pos (by omega)]
      constructor
      · intro _
        exact Or.inr (Or.inl hlt)
      · intro _
        exact ⟨.dateBeforeSupportedRange, rfl⟩
    · rw [if_neg (by omega)]
      set diff : Int := (gregDayNumber y m d : Int) -
          (gregDayNumber AD_REFERENCE.year AD_REFERENCE.month AD_REFERENCE.day : Int)
        with hdiffdef
      set n := diff.toNat with hndef
      have h3 : (n : Int) = diff := by
        rw [hndef]
        exact Int.toNat_of_nonneg (by omega)
      rw [hdiffdef] at h3
      have hgreg : gregDayNumber y m d =
          gregDayNumber AD_REFERENCE.year AD_REFERENCE.month AD_REFERENCE.day + n := by
        omega
      rcases bsAddDays_spec BS_REFERENCE.year BS_REFERENCE.month BS_REFERENCE.day n
          anchor_bsValid with ⟨r, hr, hrv, hroff⟩ | ⟨hr, hroff⟩
      · rw [hr]
        rw [countDays_anchor] at hroff
        constructor
        · rintro ⟨e, he⟩
          exact absurd he (by simp)
        · rintro (hx | hx | hx)
          · exact absurd h100.2 hx
          · omega
          · exfalso
            have hle := countDays_le_max r.year r.month r.day hrv
            omega
      · rw [hr]
        rw [countDays_anchor] at hroff
        constructor
        · intro _
          exact Or.inr (Or.inr (by omega))
        · intro _
          exact ⟨.bsYearOverflow, rfl⟩
  · rw [if_pos (by simpa using hrt)]
    constructor
    · intro _
      by_cases hreal : isRealAdDay y m d = true
      · have hy100 : ¬ 100 ≤ y := by
          intro hy
          exact hrt (by unfold adDateRoundTrips; simp [hreal, hy])
        refine Or.inr (Or.inl ?_)
        have hvs := (isRealAdDay_iff_state y m d).mp hreal
        have hb1 := greg_lt_daysBefore_succ y m d hvs
        have hb2 : daysBeforeAdYear (y + 1) ≤ daysBeforeAdYear 1943 :=
          daysBeforeAdYear_mono _ _ (by omega)
        have hb3 : daysBeforeAdYear 1943 ≤ gregDayNumber 1943 4 14 := by
          unfold gregDayNumber
          omega
        have hb4 : gregDayNumber AD_REFERENCE.year AD_REFERENCE.month AD_REFERENCE.day =
            gregDayNumber 1943 4 14 := rfl
        omega
      · exact Or.inl hreal
    · intro _
      exact ⟨.invalidAdDate, rfl⟩

end NepaliDatePicker
